import Mathlib

/-!
Verification of the package-dependency analysis core (src/main.py).

The graph is a Python dict mapping a package name to the ordered list of its
direct dependencies.  We embed it as an insertion-ordered association list.
Each recursive depth-first traversal of the source is embedded as a
fuel-indexed structurally recursive function returning an Option: running out
of fuel yields none (the fuel is a termination device; we prove a canonical
fuel bound always suffices), and a lookup that the Python code performs with
a raising subscript (rather than dict.get with a default) is modelled as a
match whose missing case also yields none, so that absence of key errors is
a provable statement.
-/

set_option maxHeartbeats 1000000
set_option linter.unusedSectionVars false

namespace PkgDeps

variable {α : Type} [DecidableEq α]

/-- A dependency graph: insertion-ordered association list from a node to its
ordered list of direct dependencies (a Python dict of lists). -/
abbrev Graph (α : Type) : Type := List (α × List α)

/-- First-match lookup with empty-list default: the source's grafo.get(no, []). -/
def lookupList : Graph α → α → List α
  | [], _ => []
  | (k, l) :: rest, n => if k = n then l else lookupList rest n

/-- The keys of the mapping, in insertion order (iteration for no in grafo). -/
def keys (g : Graph α) : List α := g.map Prod.fst

/-- All edge destinations of the mapping, with multiplicity. -/
def dests (g : Graph α) : List α := g.foldr (fun p acc => p.2 ++ acc) []

/-- Every node identifier mentioned anywhere in the mapping. -/
def univList (g : Graph α) : List α := keys g ++ dests g

/-- The nodes mentioned in the mapping, as a finite set. -/
def univFinset (g : Graph α) : Finset α := (univList g).toFinset

/-- Canonical fuel for the traversals: strictly more than the number of nodes. -/
def bound (g : Graph α) : Nat := (univFinset g).card + 1

/-- Section-3 invariant of the spec: the mapping has distinct keys (it is a
dict) and every edge destination is registered as a key. -/
def WFGraph (g : Graph α) : Prop :=
  (keys g).Nodup ∧ ∀ v ∈ dests g, v ∈ keys g

/-- The edge relation of the graph: u -> v when v occurs in u's adjacency list. -/
def Edge (g : Graph α) (u v : α) : Prop := v ∈ lookupList g u

/-- A directed cycle: some node reaches itself by a path of length at least 1. -/
def HasCycle (g : Graph α) : Prop := ∃ n, Relation.TransGen (Edge g) n n

/-! ### Reachability queries (consultar_dependencias / simular_remocao)

Both reachability walks in the source have the same dfs body:
for each neighbour of the current node, if it is not in the visited set,
add it and recurse.  The start node is never added up front. -/

/-- The neighbour for-loop of the reachability dfs, parameterised by the
recursive call used on an unvisited neighbour (which receives the set with
that neighbour already inserted, as the source inserts before recursing). -/
def reachFold (step : α → Finset α → Option (Finset α)) :
    List α → Finset α → Option (Finset α)
  | [], vis => some vis
  | v :: rest, vis =>
    if v ∈ vis then reachFold step rest vis
    else
      match step v (insert v vis) with
      | none => none
      | some vis2 => reachFold step rest vis2

/-- The dfs of consultar_dependencias (and of simular_remocao, whose body is
identical), with fuel. -/
def reachDfs (g : Graph α) : Nat → α → Finset α → Option (Finset α)
  | 0, _, _ => none
  | fuel + 1, no, vis => reachFold (fun v vs => reachDfs g fuel v vs) (lookupList g no) vis

/-- consultar_dependencias: all direct and indirect dependencies of a package. -/
def consultar_dependencias (g : Graph α) (pacote : α) : Finset α :=
  (reachDfs g (bound g) pacote ∅).getD ∅

/-- grafo_invertido[destino].append(origem) on a defaultdict(list): append to
the bucket of an existing key, or register the key at the end. -/
def bucketAppend : Graph α → α → α → Graph α
  | [], d, o => [(d, [o])]
  | (k, l) :: rest, d, o =>
    if k = d then (k, l ++ [o]) :: rest else (k, l) :: bucketAppend rest d o

/-- The inverted graph built by simular_remocao: for every edge u -> v of the
original, an edge v -> u, in the source's iteration order. -/
def invGraph (g : Graph α) : Graph α :=
  g.foldl (fun acc p => p.2.foldl (fun acc2 dst => bucketAppend acc2 dst p.1) acc) []

/-- simular_remocao: all packages that depend, directly or indirectly, on the
removed package, via the same reachability dfs over the inverted graph. -/
def simular_remocao (g : Graph α) (pacote : α) : Finset α :=
  (reachDfs (invGraph g) (bound (invGraph g)) pacote ∅).getD ∅

/-! ### Cycle detector (tem_ciclo)

The dfs keeps a global visited set and the set of nodes on the current
recursion path (recursao).  The recursion set is threaded downwards only: the
source removes the node on normal return, so after a False-return the set is
exactly what it was on entry, while on a True-return everything short-circuits
and the set is never read again. -/

/-- The neighbour for-loop of the tem_ciclo dfs: an already-visited neighbour
on the recursion path means a cycle, an unvisited one is recursed into
(propagating True immediately). -/
def cicloFold (step : α → Finset α → Option (Bool × Finset α)) (recSet : Finset α) :
    List α → Finset α → Option (Bool × Finset α)
  | [], vis => some (false, vis)
  | v :: rest, vis =>
    if v ∈ vis then
      if v ∈ recSet then some (true, vis)
      else cicloFold step recSet rest vis
    else
      match step v vis with
      | none => none
      | some (true, vis2) => some (true, vis2)
      | some (false, vis2) => cicloFold step recSet rest vis2

/-- The dfs of tem_ciclo, with fuel: mark the node visited and on the path,
then scan its neighbours. -/
def cicloDfs (g : Graph α) : Nat → α → Finset α → Finset α → Option (Bool × Finset α)
  | 0, _, _, _ => none
  | fuel + 1, no, vis, recSet =>
    cicloFold (fun v vs => cicloDfs g fuel v vs (insert no recSet)) (insert no recSet)
      (lookupList g no) (insert no vis)

/-- The outer loop of tem_ciclo over all keys, short-circuiting on True. -/
def cicloOuter (g : Graph α) (fuel : Nat) : List α → Finset α → Option Bool
  | [], _ => some false
  | no :: rest, vis =>
    if no ∈ vis then cicloOuter g fuel rest vis
    else
      match cicloDfs g fuel no vis ∅ with
      | none => none
      | some (true, _) => some true
      | some (false, vis2) => cicloOuter g fuel rest vis2

/-- tem_ciclo: whether the dependency graph contains a directed cycle. -/
def tem_ciclo (g : Graph α) : Bool :=
  (cicloOuter g (bound g) (keys g) ∅).getD false

/-- Position of the first occurrence of an element in a list. -/
def posIn : List α → α → Nat
  | [], _ => 0
  | x :: rest, a => if x = a then 0 else posIn rest a + 1

/-- Invariant of the finished ("black") nodes of the cycle dfs, in finish
order: when no cycle has been reported, every neighbour of a finished node
finished strictly earlier. -/
def CInv (g : Graph α) (bl : List α) : Prop :=
  ∀ p u q, bl = p ++ u :: q → ∀ v ∈ lookupList g u, v ∈ p

/-! ### Topological orderer (ordem_instalacao)

State of the traversal: the visited set together with the finish-order list
(ordem), to which a node is appended after all its neighbours are processed. -/

/-- The neighbour for-loop of the ordem_instalacao dfs, parameterised by the
recursive call used on an unvisited neighbour. -/
def ordemFold (step : α → Finset α × List α → Option (Finset α × List α)) :
    List α → Finset α × List α → Option (Finset α × List α)
  | [], s => some s
  | v :: rest, s =>
    if v ∈ s.1 then ordemFold step rest s
    else
      match step v s with
      | none => none
      | some s2 => ordemFold step rest s2

/-- The dfs of ordem_instalacao: mark visited, recurse into unvisited
neighbours, then append the node to the finish order. -/
def ordemDfs (g : Graph α) : Nat → α → Finset α × List α → Option (Finset α × List α)
  | 0, _, _ => none
  | fuel + 1, no, s =>
    match ordemFold (fun v t => ordemDfs g fuel v t) (lookupList g no) (insert no s.1, s.2) with
    | none => none
    | some s2 => some (s2.1, s2.2 ++ [no])

/-- The outer loop of ordem_instalacao over all keys of the mapping. -/
def ordemOuter (g : Graph α) (fuel : Nat) :
    List α → Finset α × List α → Option (Finset α × List α)
  | [], s => some s
  | no :: rest, s =>
    if no ∈ s.1 then ordemOuter g fuel rest s
    else
      match ordemDfs g fuel no s with
      | none => none
      | some s2 => ordemOuter g fuel rest s2

/-- ordem_instalacao: the reverse of the dfs finish order. -/
def ordem_instalacao (g : Graph α) : List α :=
  ((ordemOuter g (bound g) (keys g) (∅, [])).getD (∅, [])).2.reverse

/-- Invariant of the finish order: every neighbour of a finished node is
finished strictly earlier, unless the graph has a cycle. -/
def OrdInv (g : Graph α) (ord : List α) : Prop :=
  ∀ p u q, ord = p ++ u :: q → ∀ v ∈ lookupList g u,
    v ∈ p ∨ ∃ w, Relation.TransGen (Edge g) w w

/-! ### Degree analyzer (encontrar_pacotes_criticos)

The in-degree table is a Python dict from node to count, embedded as an
insertion-ordered association list of (node, count). -/

/-- in_degree.get(k, d): first-match lookup with default (also the read half
of a defaultdict(int) subscript, whose default is 0). -/
def getVal : List (α × Nat) → α → Nat → Nat
  | [], _, d => d
  | (k2, v) :: rest, k, d => if k2 = k then v else getVal rest k d

/-- in_degree[k] = v: update in place if the key exists, else append. -/
def setVal : List (α × Nat) → α → Nat → List (α × Nat)
  | [], k, v => [(k, v)]
  | (k2, v2) :: rest, k, v =>
    if k2 = k then (k, v) :: rest else (k2, v2) :: setVal rest k v

/-- First loop of encontrar_pacotes_criticos: register every key and every
destination with its current count (0 when new). -/
def initDegrees (g : Graph α) : List (α × Nat) :=
  g.foldl (fun m p =>
    p.2.foldl (fun m2 d => setVal m2 d (getVal m2 d 0))
      (setVal m p.1 (getVal m p.1 0))) []

/-- Second loop of encontrar_pacotes_criticos: in_degree[destino] += 1 for
every edge (a defaultdict read of a key that is always present). -/
def addCounts (g : Graph α) (m0 : List (α × Nat)) : List (α × Nat) :=
  g.foldl (fun m p => p.2.foldl (fun m2 d => setVal m2 d (getVal m2 d 0 + 1)) m) m0

/-- max over a list of naturals (agrees with Python's max on nonempty lists). -/
def maxListNat : List Nat → Nat
  | [] => 0
  | v :: rest => max v (maxListNat rest)

/-- encontrar_pacotes_criticos: (most depended-on packages, maximal in-degree,
full in-degree table). -/
def encontrar_pacotes_criticos (g : Graph α) : List α × Nat × List (α × Nat) :=
  let tbl := addCounts g (initDegrees g)
  if tbl.isEmpty then ([], 0, [])
  else
    let mx := maxListNat (tbl.map Prod.snd)
    ((tbl.filter (fun p => p.2 = mx)).map Prod.fst, mx, tbl)

/-! ### Strongly connected components (encontrar_cfc, Tarjan)

State of Tarjan's algorithm: the discovery counter, the discovery index and
low-link of each node (Python dicts, embedded as partial maps), the explicit
stack (head = top) with its membership set, and the accumulated components.
Reads the source performs with a raising subscript are embedded as matches
whose missing case produces none. -/

structure TState (α : Type) where
  index : Nat
  indices : α → Option Nat
  lowlinks : α → Option Nat
  pilha : List α
  naPilha : Finset α
  cfc : List (List α)

/-- The state at the start of encontrar_cfc. -/
def tarjanInit : TState α :=
  { index := 0, indices := fun _ => none, lowlinks := fun _ => none,
    pilha := [], naPilha := ∅, cfc := [] }

/-- Entry of the Tarjan dfs: assign discovery index and low-link, bump the
counter, push the node. -/
def tarjanPush (s : TState α) (no : α) : TState α :=
  { index := s.index + 1,
    indices := fun x => if x = no then some s.index else s.indices x,
    lowlinks := fun x => if x = no then some s.index else s.lowlinks x,
    pilha := no :: s.pilha,
    naPilha := insert no s.naPilha,
    cfc := s.cfc }

/-- lowlinks[no] = v. -/
def setLow (s : TState α) (no : α) (v : Nat) : TState α :=
  { s with lowlinks := fun x => if x = no then some v else s.lowlinks x }

/-- The pop-until-the-root loop: pop nodes off the stack into the component,
stopping after popping no; popping an exhausted stack is a failure. -/
def popUntilO : List α → α → Option (List α × List α)
  | [], _ => none
  | v :: rest, no =>
    if v = no then some ([v], rest)
    else
      match popUntilO rest no with
      | none => none
      | some (c, r) => some (v :: c, r)

/-- Close a component: drop it from the stack and its membership set, and
record it when it has more than one member. -/
def tarjanPop (s : TState α) (comp rest : List α) : TState α :=
  { s with
    pilha := rest,
    naPilha := s.naPilha \ comp.toFinset,
    cfc := if 1 < comp.length then s.cfc ++ [comp] else s.cfc }

/-- The neighbour for-loop of the Tarjan dfs: recurse into undiscovered
neighbours and fold their low-link in; a discovered neighbour still on the
stack lowers the low-link to its discovery index. -/
def tarjanFold (step : α → TState α → Option (TState α)) (no : α) :
    List α → TState α → Option (TState α)
  | [], s => some s
  | v :: rest, s =>
    if (s.indices v).isSome then
      if v ∈ s.naPilha then
        match s.lowlinks no, s.indices v with
        | some ln, some iv => tarjanFold step no rest (setLow s no (min ln iv))
        | _, _ => none
      else tarjanFold step no rest s
    else
      match step v s with
      | none => none
      | some s2 =>
        match s2.lowlinks no, s2.lowlinks v with
        | some ln, some lv => tarjanFold step no rest (setLow s2 no (min ln lv))
        | _, _ => none

/-- The Tarjan dfs, with fuel: push the node, scan neighbours, and when the
node roots a component (low-link equals index) pop it off the stack. -/
def tarjanDfs (g : Graph α) : Nat → α → TState α → Option (TState α)
  | 0, _, _ => none
  | fuel + 1, no, s =>
    match tarjanFold (fun v t => tarjanDfs g fuel v t) no (lookupList g no) (tarjanPush s no) with
    | none => none
    | some s2 =>
      match s2.lowlinks no, s2.indices no with
      | some ln, some inn =>
        if ln = inn then
          match popUntilO s2.pilha no with
          | none => none
          | some (comp, rest) => some (tarjanPop s2 comp rest)
        else some s2
      | _, _ => none

/-- The outer loop of encontrar_cfc over all keys. -/
def tarjanOuter (g : Graph α) (fuel : Nat) : List α → TState α → Option (TState α)
  | [], s => some s
  | no :: rest, s =>
    if (s.indices no).isSome then tarjanOuter g fuel rest s
    else
      match tarjanDfs g fuel no s with
      | none => none
      | some s2 => tarjanOuter g fuel rest s2

/-- encontrar_cfc: the strongly connected components with more than one
member, in the order Tarjan's algorithm emits them. -/
def encontrar_cfc (g : Graph α) : List (List α) :=
  match tarjanOuter g (bound g) (keys g) tarjanInit with
  | none => []
  | some s => s.cfc

/-- A node already has a discovery index. -/
def Discovered (s : TState α) (x : α) : Prop := ∃ i, s.indices x = some i

/-- Discovery index with default 0 (only used on discovered nodes). -/
def getIdx (s : TState α) (x : α) : Nat := (s.indices x).getD 0

/-- Low-link with default 0 (only used on discovered nodes). -/
def getLow (s : TState α) (x : α) : Nat := (s.lowlinks x).getD 0

/-- Number of nodes of the graph not yet discovered (the fuel measure). -/
def undiscCard (g : Graph α) (s : TState α) : Nat :=
  ((univFinset g).filter (fun x => s.indices x = none)).card

/-- Well-formedness invariant of the Tarjan state, relative to the set of
nodes whose dfs frames are currently open (gray). -/
structure TInv (g : Graph α) (gray : Finset α) (s : TState α) : Prop where
  nodupStack : s.pilha.Nodup
  naPilhaEq : s.naPilha = s.pilha.toFinset
  stackDisc : ∀ x ∈ s.pilha, Discovered s x
  domEq : ∀ x, Discovered s x ↔ (s.lowlinks x).isSome = true
  idxLt : ∀ x i, s.indices x = some i → i < s.index
  idxInj : ∀ x y i, s.indices x = some i → s.indices y = some i → x = y
  sorted : s.pilha.Pairwise (fun a b => getIdx s b < getIdx s a)
  lowLe : ∀ x l i, s.lowlinks x = some l → s.indices x = some i → l ≤ i
  lowReach : ∀ x ∈ s.pilha, getLow s x < getIdx s x →
    ∃ w, Relation.TransGen (Edge g) x w ∧ s.indices w = some (getLow s x) ∧ w ∈ s.naPilha
  finLow : ∀ x ∈ s.pilha, x ∉ gray → getLow s x < getIdx s x
  grayStack : ∀ x ∈ gray, x ∈ s.pilha

/-- The components list grew only by sound components: each emitted component
has at least two members, mutually reachable in the graph. -/
def CfcExt (g : Graph α) (old new : List (List α)) : Prop :=
  ∃ emit, new = old ++ emit ∧ ∀ comp ∈ emit, 2 ≤ comp.length ∧
    ∀ u ∈ comp, ∀ v ∈ comp, Relation.ReflTransGen (Edge g) u v

/-- Postcondition of a completed Tarjan dfs call on a fresh node no, from
state s to state s3, where NEW lists the nodes the call left on the stack. -/
structure DfsPost (g : Graph α) (gray : Finset α) (no : α) (s : TState α)
    (NEW : List α) (s3 : TState α) : Prop where
  stackEq : s3.pilha = NEW ++ s.pilha
  newFresh : ∀ x ∈ NEW, ¬ Discovered s x
  pll : ∀ x ∈ NEW, ∃ lx ln2, s3.lowlinks x = some lx ∧ s3.lowlinks no = some ln2 ∧ ln2 ≤ lx
  lowNo : ∃ ln, s3.lowlinks no = some ln ∧ (no ∈ NEW ∨ s.index ≤ ln)
  idxMono : ∀ x i, s.indices x = some i → s3.indices x = some i
  newReach : ∀ x, Discovered s3 x → Discovered s x ∨ Relation.ReflTransGen (Edge g) no x
  newIdxGe : ∀ x, ¬ Discovered s x → ∀ i, s3.indices x = some i → s.index ≤ i
  discNo : s3.indices no = some s.index
  idxGt : s.index < s3.index
  lowOld : ∀ x, Discovered s x → s3.lowlinks x = s.lowlinks x
  cfcSound : CfcExt g s.cfc s3.cfc
  inv : TInv g gray s3
  fewer : undiscCard g s3 < undiscCard g s

/-- Postcondition of the neighbour loop of the Tarjan dfs of node no, from
state s1 to state s2, where NEWf lists the nodes the loop left on the stack. -/
structure FoldPost (g : Graph α) (gray2 : Finset α) (no : α) (s1 : TState α)
    (NEWf : List α) (s2 : TState α) : Prop where
  stackEq : s2.pilha = NEWf ++ s1.pilha
  newFresh : ∀ x ∈ NEWf, ¬ Discovered s1 x
  pll : ∀ x ∈ NEWf, ∃ lx ln2, s2.lowlinks x = some lx ∧ s2.lowlinks no = some ln2 ∧ ln2 ≤ lx
  lowNo : ∃ ln1 ln2, s1.lowlinks no = some ln1 ∧ s2.lowlinks no = some ln2 ∧ ln2 ≤ ln1
  idxMono : ∀ x i, s1.indices x = some i → s2.indices x = some i
  newReach : ∀ x, Discovered s2 x → Discovered s1 x ∨ Relation.TransGen (Edge g) no x
  newIdxGe : ∀ x, ¬ Discovered s1 x → ∀ i, s2.indices x = some i → s1.index ≤ i
  idxGe : s1.index ≤ s2.index
  lowOld : ∀ x, Discovered s1 x → x ≠ no → s2.lowlinks x = s1.lowlinks x
  cfcSound : CfcExt g s1.cfc s2.cfc
  inv : TInv g gray2 s2
  fewerEq : undiscCard g s2 ≤ undiscCard g s1

/-! ### Concrete fixtures used to instantiate theorems with hypotheses -/

/-- A -> B, acyclic. -/
def gEdge : Graph String := [("A", ["B"]), ("B", [])]

/-- The 3-cycle A -> B -> C -> A of the spec's concrete scenario. -/
def gCycle3 : Graph String := [("A", ["B"]), ("B", ["C"]), ("C", ["A"])]

/-- The acyclic diamond A -> B, A -> C, B -> D, C -> D of the spec. -/
def gDiamond : Graph String :=
  [("A", ["B", "C"]), ("B", ["D"]), ("C", ["D"]), ("D", [])]

/-! ## Basic lemmas about the graph model -/

theorem dests_cons (p : α × List α) (rest : Graph α) :
    dests (p :: rest) = p.2 ++ dests rest := rfl

theorem lookupList_subset_dests (g : Graph α) (no v : α)
    (h : v ∈ lookupList g no) : v ∈ dests g := by
  induction g with
  | nil => simp [lookupList] at h
  | cons p rest ih =>
    obtain ⟨k, l⟩ := p
    rw [dests_cons]
    simp only [lookupList] at h
    by_cases hk : k = no
    · simp [hk] at h
      exact List.mem_append.mpr (Or.inl h)
    · simp [hk] at h
      exact List.mem_append.mpr (Or.inr (ih h))

theorem lookupList_mem_univ (g : Graph α) (no v : α)
    (h : v ∈ lookupList g no) : v ∈ univFinset g := by
  have := lookupList_subset_dests g no v h
  simp [univFinset, univList]
  exact Or.inr this

theorem key_mem_univ (g : Graph α) (k : α) (h : k ∈ keys g) : k ∈ univFinset g := by
  simp [univFinset, univList]
  exact Or.inl h

theorem lookupList_eq_nil_of_not_key (g : Graph α) (n : α) (h : n ∉ keys g) :
    lookupList g n = [] := by
  induction g with
  | nil => rfl
  | cons p rest ih =>
    obtain ⟨k, l⟩ := p
    simp [keys] at h
    simp only [lookupList]
    rw [if_neg (fun hk => h.1 hk.symm)]
    exact ih (by simp [keys]; exact h.2)

theorem lookupList_ne_nil_key (g : Graph α) (n : α) (h : lookupList g n ≠ []) :
    n ∈ keys g := by
  by_contra hn
  exact h (lookupList_eq_nil_of_not_key g n hn)

/-- Removing a fresh visited node shrinks the unvisited part of the universe. -/
theorem card_sdiff_insert_lt (u vis : Finset α) (v : α) (hv : v ∈ u) (hnv : v ∉ vis) :
    (u \ insert v vis).card < (u \ vis).card := by
  have he : u \ insert v vis = (u \ vis).erase v := by
    ext x
    simp only [Finset.mem_sdiff, Finset.mem_insert, Finset.mem_erase]
    tauto
  rw [he]
  exact Finset.card_erase_lt_of_mem (Finset.mem_sdiff.mpr ⟨hv, hnv⟩)

theorem card_sdiff_le_of_subset (u vis vis2 : Finset α) (h : vis ⊆ vis2) :
    (u \ vis2).card ≤ (u \ vis).card := by
  apply Finset.card_le_card
  intro x hx
  simp only [Finset.mem_sdiff] at hx ⊢
  exact ⟨hx.1, fun hc => hx.2 (h hc)⟩

/-! ## Reachability dfs: fuel sufficiency, soundness, closedness -/

theorem reachFold_some (g : Graph α) (fuel : Nat)
    (hstep : ∀ v vs, (univFinset g \ vs).card < fuel →
      ∃ vs2, reachDfs g fuel v vs = some vs2 ∧ vs ⊆ vs2) :
    ∀ l vis, (∀ v ∈ l, v ∈ univFinset g) → (univFinset g \ vis).card ≤ fuel →
      ∃ vis2, reachFold (fun v vs => reachDfs g fuel v vs) l vis = some vis2 ∧ vis ⊆ vis2 := by
  intro l
  induction l with
  | nil => intro vis _ _; exact ⟨vis, rfl, Finset.Subset.refl vis⟩
  | cons v rest ih =>
    intro vis hl hcard
    by_cases hv : v ∈ vis
    · rw [reachFold, if_pos hv]
      exact ih vis (fun w hw => hl w (List.mem_cons_of_mem v hw)) hcard
    · have hvu : v ∈ univFinset g := hl v (List.mem_cons_self v rest)
      have hlt : (univFinset g \ insert v vis).card < fuel :=
        Nat.lt_of_lt_of_le (card_sdiff_insert_lt _ _ _ hvu hv) hcard
      obtain ⟨vs2, heq, hsub⟩ := hstep v (insert v vis) hlt
      have hcard2 : (univFinset g \ vs2).card ≤ fuel := by
        calc (univFinset g \ vs2).card
            ≤ (univFinset g \ vis).card :=
              card_sdiff_le_of_subset _ _ _
                (fun x hx => hsub (Finset.mem_insert_of_mem hx))
          _ ≤ fuel := hcard
      obtain ⟨vis2, heq2, hsub2⟩ :=
        ih vs2 (fun w hw => hl w (List.mem_cons_of_mem v hw)) hcard2
      refine ⟨vis2, ?_, ?_⟩
      · rw [reachFold, if_neg hv, heq]
        exact heq2
      · exact fun x hx => hsub2 (hsub (Finset.mem_insert_of_mem hx))

theorem reachDfs_some (g : Graph α) :
    ∀ fuel no vis, (univFinset g \ vis).card < fuel →
      ∃ vis2, reachDfs g fuel no vis = some vis2 ∧ vis ⊆ vis2 := by
  intro fuel
  induction fuel with
  | zero => intro no vis h; omega
  | succ fuel ih =>
    intro no vis h
    rw [reachDfs]
    exact reachFold_some g fuel ih (lookupList g no)
      vis (fun v hv => lookupList_mem_univ g no v hv) (Nat.lt_succ_iff.mp h)

theorem reachFold_sound (g : Graph α) (fuel : Nat) (no : α)
    (hstep : ∀ v vs vs2, reachDfs g fuel v vs = some vs2 →
      ∀ x ∈ vs2, x ∈ vs ∨ Relation.TransGen (Edge g) v x) :
    ∀ l vis vis2, (∀ v ∈ l, Edge g no v) →
      reachFold (fun v vs => reachDfs g fuel v vs) l vis = some vis2 →
      ∀ x ∈ vis2, x ∈ vis ∨ Relation.TransGen (Edge g) no x := by
  intro l
  induction l with
  | nil =>
    intro vis vis2 _ heq x hx
    rw [reachFold] at heq
    cases heq
    exact Or.inl hx
  | cons v rest ih =>
    intro vis vis2 hl heq x hx
    by_cases hv : v ∈ vis
    · rw [reachFold, if_pos hv] at heq
      exact ih vis vis2 (fun w hw => hl w (List.mem_cons_of_mem v hw)) heq x hx
    · rw [reachFold, if_neg hv] at heq
      cases hstepres : reachDfs g fuel v (insert v vis) with
      | none => rw [hstepres] at heq; cases heq
      | some vs1 =>
        rw [hstepres] at heq
        have hrest := ih vs1 vis2 (fun w hw => hl w (List.mem_cons_of_mem v hw)) heq x hx
        rcases hrest with hx1 | htg
        · rcases hstep v (insert v vis) vs1 hstepres x hx1 with hx2 | htg2
          · rcases Finset.mem_insert.mp hx2 with hxv | hxvis
            · refine Or.inr ?_
              rw [hxv]
              exact Relation.TransGen.single (hl v (List.mem_cons_self v rest))
            · exact Or.inl hxvis
          · exact Or.inr (Relation.TransGen.head (hl v (List.mem_cons_self v rest)) htg2)
        · exact Or.inr htg

theorem reachDfs_sound (g : Graph α) :
    ∀ fuel no vis vis2, reachDfs g fuel no vis = some vis2 →
      ∀ x ∈ vis2, x ∈ vis ∨ Relation.TransGen (Edge g) no x := by
  intro fuel
  induction fuel with
  | zero => intro no vis vis2 h; rw [reachDfs] at h; cases h
  | succ fuel ih =>
    intro no vis vis2 heq
    rw [reachDfs] at heq
    exact reachFold_sound g fuel no ih (lookupList g no) vis vis2
      (fun v hv => hv) heq

theorem reachFold_closed (g : Graph α) (fuel : Nat)
    (hstep : ∀ v vs vs2, reachDfs g fuel v vs = some vs2 →
      vs ⊆ vs2 ∧ (∀ w ∈ lookupList g v, w ∈ vs2) ∧
        ∀ u ∈ vs2, u ∉ vs → ∀ w ∈ lookupList g u, w ∈ vs2) :
    ∀ l vis vis2, reachFold (fun v vs => reachDfs g fuel v vs) l vis = some vis2 →
      vis ⊆ vis2 ∧ (∀ v ∈ l, v ∈ vis2) ∧
        ∀ u ∈ vis2, u ∉ vis → ∀ w ∈ lookupList g u, w ∈ vis2 := by
  intro l
  induction l with
  | nil =>
    intro vis vis2 heq
    rw [reachFold] at heq
    cases heq
    exact ⟨Finset.Subset.refl _, by simp, fun u hu hnu w hw => absurd hu hnu⟩
  | cons v rest ih =>
    intro vis vis2 heq
    by_cases hv : v ∈ vis
    · rw [reachFold, if_pos hv] at heq
      obtain ⟨hsub, hrest, hcl⟩ := ih vis vis2 heq
      refine ⟨hsub, ?_, hcl⟩
      intro w hw
      rcases List.mem_cons.mp hw with hwv | hwr
      · subst hwv; exact hsub hv
      · exact hrest w hwr
    · rw [reachFold, if_neg hv] at heq
      cases hstepres : reachDfs g fuel v (insert v vis) with
      | none => rw [hstepres] at heq; cases heq
      | some vs1 =>
        rw [hstepres] at heq
        obtain ⟨hsub1, hlk1, hcl1⟩ := hstep v (insert v vis) vs1 hstepres
        obtain ⟨hsub2, hrest2, hcl2⟩ := ih vs1 vis2 heq
        have hvisvs1 : vis ⊆ vs1 := fun x hx => hsub1 (Finset.mem_insert_of_mem hx)
        refine ⟨fun x hx => hsub2 (hvisvs1 hx), ?_, ?_⟩
        · intro w hw
          rcases List.mem_cons.mp hw with hwv | hwr
          · rw [hwv]
            exact hsub2 (hsub1 (Finset.mem_insert_self v vis))
          · exact hrest2 w hwr
        · intro u hu hnu w hw
          by_cases hu1 : u ∈ vs1
          · by_cases huv : u = v
            · subst huv
              exact hsub2 (hlk1 w hw)
            · have : u ∉ insert v vis := by
                intro hc
                rcases Finset.mem_insert.mp hc with h1 | h2
                · exact huv h1
                · exact hnu h2
              exact hsub2 (hcl1 u hu1 this w hw)
          · exact hcl2 u hu hu1 w hw

theorem reachDfs_closed (g : Graph α) :
    ∀ fuel no vis vis2, reachDfs g fuel no vis = some vis2 →
      vis ⊆ vis2 ∧ (∀ v ∈ lookupList g no, v ∈ vis2) ∧
        ∀ u ∈ vis2, u ∉ vis → ∀ w ∈ lookupList g u, w ∈ vis2 := by
  intro fuel
  induction fuel with
  | zero => intro no vis vis2 h; rw [reachDfs] at h; cases h
  | succ fuel ih =>
    intro no vis vis2 heq
    rw [reachDfs] at heq
    exact reachFold_closed g fuel ih (lookupList g no) vis vis2 heq

/-- The reachability dfs from n computes exactly the set of nodes reachable
from n by a directed path of length at least one. -/
theorem reachDfs_spec (g : Graph α) (n : α) :
    ∀ m, m ∈ (reachDfs g (bound g) n ∅).getD ∅ ↔ Relation.TransGen (Edge g) n m := by
  obtain ⟨vis2, heq, -⟩ := reachDfs_some g (bound g) n ∅ (by
    rw [Finset.sdiff_empty]
    exact Nat.lt_succ_self _)
  intro m
  rw [heq]
  simp only [Option.getD_some]
  constructor
  · intro hm
    rcases reachDfs_sound g (bound g) n ∅ vis2 heq m hm with h | h
    · simp at h
    · exact h
  · intro htg
    obtain ⟨-, hlk, hcl⟩ := reachDfs_closed g (bound g) n ∅ vis2 heq
    induction htg with
    | single h => exact hlk _ h
    | tail hab hbc ih2 =>
      exact hcl _ ih2 (by simp) _ hbc

/-! ## The inverted graph of simular_remocao -/

theorem mem_lookupList_bucketAppend (m : Graph α) (d o x y : α) :
    y ∈ lookupList (bucketAppend m d o) x ↔
      y ∈ lookupList m x ∨ (x = d ∧ y = o) := by
  induction m with
  | nil =>
    simp only [bucketAppend, lookupList]
    by_cases hx : d = x
    · subst hx
      simp
    · have hx2 : ¬ x = d := fun h => hx h.symm
      simp [hx, hx2]
  | cons p rest ih =>
    obtain ⟨k, l⟩ := p
    simp only [bucketAppend]
    by_cases hkd : k = d
    · subst hkd
      rw [if_pos rfl]
      simp only [lookupList]
      by_cases hkx : k = x
      · subst hkx
        simp
      · have hx2 : ¬ x = k := fun h => hkx h.symm
        simp [hkx, hx2]
    · rw [if_neg hkd]
      simp only [lookupList]
      by_cases hkx : k = x
      · subst hkx
        rw [if_pos rfl, if_pos rfl]
        have hnd : ¬ (k = d ∧ y = o) := fun h => hkd h.1
        tauto
      · rw [if_neg hkx, if_neg hkx]
        exact ih

theorem mem_lookupList_foldl_bucket (dl : List α) (o x y : α) : ∀ acc : Graph α,
    y ∈ lookupList (dl.foldl (fun a dst => bucketAppend a dst o) acc) x ↔
      y ∈ lookupList acc x ∨ (y = o ∧ x ∈ dl) := by
  induction dl with
  | nil => intro acc; simp
  | cons d rest ih =>
    intro acc
    rw [List.foldl_cons, ih (bucketAppend acc d o)]
    rw [mem_lookupList_bucketAppend]
    simp only [List.mem_cons]
    constructor
    · rintro ((h | ⟨h1, h2⟩) | ⟨h1, h2⟩)
      · exact Or.inl h
      · exact Or.inr ⟨h2, Or.inl h1⟩
      · exact Or.inr ⟨h1, Or.inr h2⟩
    · rintro (h | ⟨h1, h2 | h2⟩)
      · exact Or.inl (Or.inl h)
      · exact Or.inl (Or.inr ⟨h2, h1⟩)
      · exact Or.inr ⟨h1, h2⟩

theorem mem_lookupList_invGraph_fold (g : Graph α) (x y : α) : ∀ acc : Graph α,
    y ∈ lookupList
        (g.foldl (fun acc p => p.2.foldl (fun acc2 dst => bucketAppend acc2 dst p.1) acc) acc) x ↔
      y ∈ lookupList acc x ∨ ∃ l, (y, l) ∈ g ∧ x ∈ l := by
  induction g with
  | nil => intro acc; simp
  | cons p rest ih =>
    intro acc
    obtain ⟨o, dl⟩ := p
    rw [List.foldl_cons, ih, mem_lookupList_foldl_bucket]
    simp only [List.mem_cons, Prod.mk.injEq]
    constructor
    · rintro ((h | ⟨h1, h2⟩) | ⟨l, hl, hx⟩)
      · exact Or.inl h
      · exact Or.inr ⟨dl, Or.inl ⟨h1, rfl⟩, h2⟩
      · exact Or.inr ⟨l, Or.inr hl, hx⟩
    · rintro (h | ⟨l, hl | hl, hx⟩)
      · exact Or.inl (Or.inl h)
      · obtain ⟨h1, h2⟩ := hl
        exact Or.inl (Or.inr ⟨h1, h2 ▸ hx⟩)
      · exact Or.inr ⟨l, hl, hx⟩

theorem mem_lookupList_iff_of_nodup (g : Graph α) (hnd : (keys g).Nodup) (x y : α) :
    x ∈ lookupList g y ↔ ∃ l, (y, l) ∈ g ∧ x ∈ l := by
  induction g with
  | nil => simp [lookupList]
  | cons p rest ih =>
    obtain ⟨k, l0⟩ := p
    have hnd2 : (keys rest).Nodup := (List.nodup_cons.mp hnd).2
    have hknr : k ∉ keys rest := (List.nodup_cons.mp hnd).1
    simp only [lookupList, List.mem_cons, Prod.mk.injEq]
    by_cases hk : k = y
    · subst hk
      rw [if_pos rfl]
      constructor
      · intro hx
        exact ⟨l0, Or.inl ⟨rfl, rfl⟩, hx⟩
      · rintro ⟨l, hl | hl, hx⟩
        · obtain ⟨-, h2⟩ := hl
          exact h2 ▸ hx
        · exfalso
          apply hknr
          have : (k, l) ∈ rest := hl
          exact List.mem_map.mpr ⟨(k, l), this, rfl⟩
    · rw [if_neg hk, ih hnd2]
      constructor
      · rintro ⟨l, hl, hx⟩
        exact ⟨l, Or.inr hl, hx⟩
      · rintro ⟨l, hl | hl, hx⟩
        · exact absurd hl.1 (fun h => hk h.symm)
        · exact ⟨l, hl, hx⟩

theorem edge_invGraph_iff (g : Graph α) (hnd : (keys g).Nodup) (x y : α) :
    Edge (invGraph g) x y ↔ Edge g y x := by
  show y ∈ lookupList (invGraph g) x ↔ x ∈ lookupList g y
  rw [invGraph, mem_lookupList_invGraph_fold, mem_lookupList_iff_of_nodup g hnd]
  simp [lookupList]

theorem transGen_invGraph (g : Graph α) (hnd : (keys g).Nodup) (a b : α) :
    Relation.TransGen (Edge (invGraph g)) a b ↔ Relation.TransGen (Edge g) b a := by
  have hswap : Edge (invGraph g) = Function.swap (Edge g) := by
    funext x y
    exact propext (edge_invGraph_iff g hnd x y)
  rw [hswap]
  exact Relation.transGen_swap

theorem mem_keys_bucketAppend (m : Graph α) (d o x : α) :
    x ∈ keys (bucketAppend m d o) ↔ x ∈ keys m ∨ x = d := by
  induction m with
  | nil => simp [bucketAppend, keys]
  | cons p rest ih =>
    obtain ⟨k, l⟩ := p
    simp only [bucketAppend]
    by_cases hkd : k = d
    · subst hkd
      rw [if_pos rfl]
      simp only [keys, List.map_cons, List.mem_cons]
      tauto
    · rw [if_neg hkd]
      simp only [keys, List.map_cons, List.mem_cons] at ih ⊢
      tauto

theorem mem_keys_foldl_bucket (dl : List α) (o x : α) : ∀ acc : Graph α,
    x ∈ keys (dl.foldl (fun a dst => bucketAppend a dst o) acc) ↔
      x ∈ keys acc ∨ x ∈ dl := by
  induction dl with
  | nil => intro acc; simp
  | cons d rest ih =>
    intro acc
    rw [List.foldl_cons, ih, mem_keys_bucketAppend]
    simp only [List.mem_cons]
    tauto

theorem mem_keys_invGraph_fold (g : Graph α) (x : α) : ∀ acc : Graph α,
    x ∈ keys (g.foldl
      (fun acc p => p.2.foldl (fun acc2 dst => bucketAppend acc2 dst p.1) acc) acc) →
    x ∈ keys acc ∨ x ∈ dests g := by
  induction g with
  | nil => intro acc hx; exact Or.inl hx
  | cons p rest ih =>
    intro acc hx
    obtain ⟨o, dl⟩ := p
    rw [List.foldl_cons] at hx
    rcases ih _ hx with hx2 | hx2
    · rw [mem_keys_foldl_bucket] at hx2
      rcases hx2 with hx3 | hx3
      · exact Or.inl hx3
      · refine Or.inr ?_
        rw [dests_cons]
        exact List.mem_append.mpr (Or.inl hx3)
    · refine Or.inr ?_
      rw [dests_cons]
      exact List.mem_append.mpr (Or.inr hx2)

theorem mem_keys_invGraph (g : Graph α) (x : α) (h : x ∈ keys (invGraph g)) :
    x ∈ dests g := by
  rcases mem_keys_invGraph_fold g x [] h with h2 | h2
  · simp [keys] at h2
  · exact h2

/-! ## Claims C6, C7, C8 -/

/-- C6: for every graph G and node n, transitiveDependencies(G, n)
(consultar_dependencias) is exactly the set of nodes reachable from n by a
directed path of length at least 1; in particular n belongs to the result iff
n lies on a directed cycle. -/
theorem C6_consultar_reachable (g : Graph α) (n : α) :
    (∀ m, m ∈ consultar_dependencias g n ↔ Relation.TransGen (Edge g) n m) ∧
    (n ∈ consultar_dependencias g n ↔ Relation.TransGen (Edge g) n n) :=
  ⟨fun m => reachDfs_spec g n m, reachDfs_spec g n n⟩

/-- C7: m is affected by the removal of n iff there is a directed path of
length at least 1 from m to n in the original graph; and simular_remocao is
the reachability query run on the inverted graph. -/
theorem C7_simular_mem_iff (g : Graph α) (hnd : (keys g).Nodup) (n : α) :
    (∀ m, m ∈ simular_remocao g n ↔ Relation.TransGen (Edge g) m n) ∧
    simular_remocao g n = consultar_dependencias (invGraph g) n := by
  constructor
  · intro m
    have h1 : m ∈ simular_remocao g n ↔
        Relation.TransGen (Edge (invGraph g)) n m :=
      reachDfs_spec (invGraph g) n m
    rw [h1]
    exact transGen_invGraph g hnd n m
  · rfl

/-- Witness for C7 at a concrete two-node graph. -/
theorem C7_simular_mem_iff_witness :
    (keys gEdge).Nodup ∧
      ((∀ m, m ∈ simular_remocao gEdge "B" ↔
          Relation.TransGen (Edge gEdge) m "B") ∧
        simular_remocao gEdge "B" = consultar_dependencias (invGraph gEdge) "B") :=
  ⟨by decide, C7_simular_mem_iff gEdge (by decide) "B"⟩

/-- C8: querying either reachability analysis for a node that appears nowhere
in the graph returns the empty set (no key error is raised: the walk finds no
neighbours). -/
theorem C8_absent_node (g : Graph α) (n : α) (hk : n ∉ keys g) (hd : n ∉ dests g) :
    consultar_dependencias g n = ∅ ∧ simular_remocao g n = ∅ := by
  constructor
  · show (reachDfs g (bound g) n ∅).getD ∅ = ∅
    simp only [bound]
    rw [reachDfs, lookupList_eq_nil_of_not_key g n hk, reachFold]
    rfl
  · show (reachDfs (invGraph g) (bound (invGraph g)) n ∅).getD ∅ = ∅
    have hk2 : n ∉ keys (invGraph g) := fun hc => hd (mem_keys_invGraph g n hc)
    simp only [bound]
    rw [reachDfs, lookupList_eq_nil_of_not_key (invGraph g) n hk2, reachFold]
    rfl

/-- Witness for C8: the node C appears nowhere in the graph A -> B. -/
theorem C8_absent_node_witness :
    ("C" ∉ keys gEdge ∧ "C" ∉ dests gEdge) ∧
      (consultar_dependencias gEdge "C" = ∅ ∧ simular_remocao gEdge "C" = ∅) :=
  ⟨⟨by decide, by decide⟩, C8_absent_node gEdge "C" (by decide) (by decide)⟩

/-! ## Degree analyzer lemmas -/

/-- Sum of the counts of an in-degree table. -/
def sumVals (m : List (α × Nat)) : Nat := (m.map Prod.snd).sum

theorem getVal_cons_self (k : α) (v : Nat) (rest : List (α × Nat)) (d : Nat) :
    getVal ((k, v) :: rest) k d = v := by
  simp [getVal]

theorem sumVals_setVal_self (m : List (α × Nat)) (k : α) :
    sumVals (setVal m k (getVal m k 0)) = sumVals m := by
  induction m with
  | nil => rfl
  | cons p rest ih =>
    obtain ⟨k2, v2⟩ := p
    simp only [setVal, getVal]
    by_cases hk : k2 = k
    · rw [if_pos hk, if_pos hk]
      simp [sumVals]
    · rw [if_neg hk, if_neg hk]
      simp only [sumVals, List.map_cons, List.sum_cons] at ih ⊢
      omega

theorem sumVals_setVal_succ (m : List (α × Nat)) (k : α) :
    sumVals (setVal m k (getVal m k 0 + 1)) = sumVals m + 1 := by
  induction m with
  | nil => rfl
  | cons p rest ih =>
    obtain ⟨k2, v2⟩ := p
    simp only [setVal, getVal]
    by_cases hk : k2 = k
    · rw [if_pos hk, if_pos hk]
      simp [sumVals]
      omega
    · rw [if_neg hk, if_neg hk]
      simp only [sumVals, List.map_cons, List.sum_cons] at ih ⊢
      omega

theorem sumVals_initFold (dl : List α) : ∀ m : List (α × Nat),
    sumVals (dl.foldl (fun m2 d => setVal m2 d (getVal m2 d 0)) m) = sumVals m := by
  induction dl with
  | nil => intro m; rfl
  | cons d rest ih =>
    intro m
    rw [List.foldl_cons, ih, sumVals_setVal_self]

theorem sumVals_initDegrees (g : Graph α) : sumVals (initDegrees g) = 0 := by
  have main : ∀ m : List (α × Nat),
      sumVals (g.foldl (fun m p =>
        p.2.foldl (fun m2 d => setVal m2 d (getVal m2 d 0))
          (setVal m p.1 (getVal m p.1 0))) m) = sumVals m := by
    induction g with
    | nil => intro m; rfl
    | cons p rest ih =>
      intro m
      rw [List.foldl_cons, ih, sumVals_initFold, sumVals_setVal_self]
  exact main []

theorem sumVals_countFold (dl : List α) : ∀ m : List (α × Nat),
    sumVals (dl.foldl (fun m2 d => setVal m2 d (getVal m2 d 0 + 1)) m) =
      sumVals m + dl.length := by
  induction dl with
  | nil => intro m; rfl
  | cons d rest ih =>
    intro m
    rw [List.foldl_cons, ih, sumVals_setVal_succ, List.length_cons]
    omega

theorem sumVals_addCounts (g : Graph α) : ∀ m0 : List (α × Nat),
    sumVals (addCounts g m0) = sumVals m0 + (g.map (fun p => p.2.length)).sum := by
  induction g with
  | nil => intro m0; simp [addCounts]
  | cons p rest ih =>
    intro m0
    have hrest : addCounts (p :: rest) m0 =
        addCounts rest (p.2.foldl (fun m2 d => setVal m2 d (getVal m2 d 0 + 1)) m0) := by
      simp [addCounts]
    rw [hrest, ih, sumVals_countFold]
    simp only [List.map_cons, List.sum_cons]
    omega

theorem setVal_ne_nil (m : List (α × Nat)) (k : α) (v : Nat) : setVal m k v ≠ [] := by
  cases m with
  | nil => simp [setVal]
  | cons p rest =>
    obtain ⟨k2, v2⟩ := p
    simp only [setVal]
    by_cases hk : k2 = k
    · rw [if_pos hk]; simp
    · rw [if_neg hk]; simp

theorem countFold_ne_nil (dl : List α) : ∀ m : List (α × Nat), m ≠ [] →
    dl.foldl (fun m2 d => setVal m2 d (getVal m2 d 0 + 1)) m ≠ [] := by
  induction dl with
  | nil => intro m hm; exact hm
  | cons d rest ih =>
    intro m _
    rw [List.foldl_cons]
    exact ih _ (setVal_ne_nil _ _ _)

theorem initFold_ne_nil (dl : List α) : ∀ m : List (α × Nat), m ≠ [] →
    dl.foldl (fun m2 d => setVal m2 d (getVal m2 d 0)) m ≠ [] := by
  induction dl with
  | nil => intro m hm; exact hm
  | cons d rest ih =>
    intro m _
    rw [List.foldl_cons]
    exact ih _ (setVal_ne_nil _ _ _)

theorem initDegrees_ne_nil (g : Graph α) (hg : g ≠ []) : initDegrees g ≠ [] := by
  have main : ∀ (rest : Graph α) (m : List (α × Nat)), m ≠ [] →
      rest.foldl (fun m p =>
        p.2.foldl (fun m2 d => setVal m2 d (getVal m2 d 0))
          (setVal m p.1 (getVal m p.1 0))) m ≠ [] := by
    intro rest
    induction rest with
    | nil => intro m hm; exact hm
    | cons p rest2 ih =>
      intro m _
      rw [List.foldl_cons]
      exact ih _ (initFold_ne_nil _ _ (setVal_ne_nil _ _ _))
  cases g with
  | nil => exact absurd rfl hg
  | cons p rest =>
    show (p :: rest).foldl _ [] ≠ []
    rw [List.foldl_cons]
    exact main rest _ (initFold_ne_nil _ _ (setVal_ne_nil _ _ _))

theorem addCounts_ne_nil (g : Graph α) : ∀ m0 : List (α × Nat), m0 ≠ [] →
    addCounts g m0 ≠ [] := by
  induction g with
  | nil => intro m0 hm; exact hm
  | cons p rest ih =>
    intro m0 hm
    have : addCounts (p :: rest) m0 =
        addCounts rest (p.2.foldl (fun m2 d => setVal m2 d (getVal m2 d 0 + 1)) m0) := by
      simp [addCounts]
    rw [this]
    exact ih _ (countFold_ne_nil _ _ hm)

theorem le_maxListNat (l : List Nat) : ∀ v ∈ l, v ≤ maxListNat l := by
  induction l with
  | nil => simp
  | cons w rest ih =>
    intro v hv
    rcases List.mem_cons.mp hv with h | h
    · rw [h, maxListNat]
      exact Nat.le_max_left _ _
    · rw [maxListNat]
      exact Nat.le_trans (ih v h) (Nat.le_max_right _ _)

theorem maxListNat_mem (l : List Nat) (hl : l ≠ []) : maxListNat l ∈ l := by
  induction l with
  | nil => exact absurd rfl hl
  | cons w rest ih =>
    rw [maxListNat]
    cases rest with
    | nil => simp [maxListNat]
    | cons w2 rest2 =>
      rcases Nat.le_total (maxListNat (w2 :: rest2)) w with h | h
      · rw [Nat.max_eq_left h]
        exact List.mem_cons_self _ _
      · rw [Nat.max_eq_right h]
        exact List.mem_cons_of_mem _ (ih (by simp))

/-! ## Claim C5 -/

/-- The claim of C5 as frozen is false: on the empty graph the returned list
of critical packages is empty, not non-empty. -/
theorem C5_counterexample_empty_graph :
    (encontrar_pacotes_criticos ([] : Graph String)).1 = [] := by rfl

/-- C5 amended: for every non-empty graph the returned list is non-empty and
consists of exactly the table entries achieving the maximum, the returned
integer is the maximum of the table, and the table counts sum to the number
of edges (parallel edges counted with multiplicity); on the empty graph the
triple is ([], 0, empty table). -/
theorem C5_criticos (g : Graph α) (hne : g ≠ []) :
    (encontrar_pacotes_criticos g).1 ≠ [] ∧
    (encontrar_pacotes_criticos g).1 =
      ((encontrar_pacotes_criticos g).2.2.filter
        (fun p => p.2 = (encontrar_pacotes_criticos g).2.1)).map Prod.fst ∧
    (∀ p ∈ (encontrar_pacotes_criticos g).2.2, p.2 ≤ (encontrar_pacotes_criticos g).2.1) ∧
    (∃ p ∈ (encontrar_pacotes_criticos g).2.2, p.2 = (encontrar_pacotes_criticos g).2.1) ∧
    ((encontrar_pacotes_criticos g).2.2.map Prod.snd).sum =
      (g.map (fun p => p.2.length)).sum ∧
    encontrar_pacotes_criticos ([] : Graph α) = ([], 0, []) := by
  have htbl : addCounts g (initDegrees g) ≠ [] :=
    addCounts_ne_nil g (initDegrees g) (initDegrees_ne_nil g hne)
  have hempty : (addCounts g (initDegrees g)).isEmpty = false := by
    cases h : addCounts g (initDegrees g) with
    | nil => exact absurd h htbl
    | cons p rest => rfl
  have hunfold : encontrar_pacotes_criticos g =
      (((addCounts g (initDegrees g)).filter
          (fun p => p.2 = maxListNat ((addCounts g (initDegrees g)).map Prod.snd))).map Prod.fst,
        maxListNat ((addCounts g (initDegrees g)).map Prod.snd),
        addCounts g (initDegrees g)) := by
    rw [encontrar_pacotes_criticos]
    simp only [hempty]
    rfl
  rw [hunfold]
  have hmx : maxListNat ((addCounts g (initDegrees g)).map Prod.snd) ∈
      (addCounts g (initDegrees g)).map Prod.snd := by
    apply maxListNat_mem
    intro hc
    exact htbl (List.map_eq_nil_iff.mp hc)
  obtain ⟨p, hp, hpv⟩ := List.mem_map.mp hmx
  refine ⟨?_, rfl, ?_, ?_, ?_, rfl⟩
  · intro hc
    have hpf : p ∈ (addCounts g (initDegrees g)).filter
        (fun q => q.2 = maxListNat ((addCounts g (initDegrees g)).map Prod.snd)) := by
      rw [List.mem_filter]
      exact ⟨hp, by simp [hpv]⟩
    have : p.1 ∈ ([] : List α) := by
      rw [← hc]
      exact List.mem_map.mpr ⟨p, hpf, rfl⟩
    simp at this
  · intro q hq
    exact le_maxListNat _ _ (List.mem_map.mpr ⟨q, hq, rfl⟩)
  · exact ⟨p, hp, hpv⟩
  · show ((addCounts g (initDegrees g)).map Prod.snd).sum =
      (g.map (fun p => p.2.length)).sum
    have h1 : sumVals (addCounts g (initDegrees g)) =
        sumVals (initDegrees g) + (g.map (fun p => p.2.length)).sum :=
      sumVals_addCounts g (initDegrees g)
    rw [sumVals_initDegrees] at h1
    simpa [sumVals] using h1

/-- Witness for C5 at the spec's diamond fixture. -/
theorem C5_criticos_witness : (gDiamond ≠ []) ∧
    ((encontrar_pacotes_criticos gDiamond).1 ≠ [] ∧
    (encontrar_pacotes_criticos gDiamond).1 =
      ((encontrar_pacotes_criticos gDiamond).2.2.filter
        (fun p => p.2 = (encontrar_pacotes_criticos gDiamond).2.1)).map Prod.fst ∧
    (∀ p ∈ (encontrar_pacotes_criticos gDiamond).2.2,
      p.2 ≤ (encontrar_pacotes_criticos gDiamond).2.1) ∧
    (∃ p ∈ (encontrar_pacotes_criticos gDiamond).2.2,
      p.2 = (encontrar_pacotes_criticos gDiamond).2.1) ∧
    ((encontrar_pacotes_criticos gDiamond).2.2.map Prod.snd).sum =
      (gDiamond.map (fun p => p.2.length)).sum ∧
    encontrar_pacotes_criticos ([] : Graph String) = ([], 0, [])) :=
  ⟨by decide, C5_criticos gDiamond (by decide)⟩

/-! ## Topological orderer: fuel sufficiency -/

theorem ordemFold_some (g : Graph α) (fuel : Nat)
    (hstep : ∀ no vis ord, no ∈ univFinset g → no ∉ vis →
      (univFinset g \ vis).card < fuel →
      ∃ vis2 ord2, ordemDfs g fuel no (vis, ord) = some (vis2, ord2) ∧ vis ⊆ vis2) :
    ∀ l vis ord, (∀ v ∈ l, v ∈ univFinset g) → (univFinset g \ vis).card < fuel →
      ∃ vis2 ord2,
        ordemFold (fun v t => ordemDfs g fuel v t) l (vis, ord) = some (vis2, ord2) ∧
        vis ⊆ vis2 := by
  intro l
  induction l with
  | nil =>
    intro vis ord _ _
    exact ⟨vis, ord, rfl, Finset.Subset.refl vis⟩
  | cons v rest ih =>
    intro vis ord hl hcard
    by_cases hv : v ∈ vis
    · rw [ordemFold, if_pos hv]
      exact ih vis ord (fun w hw => hl w (List.mem_cons_of_mem v hw)) hcard
    · obtain ⟨vism, ordm, heq, hsub⟩ :=
        hstep v vis ord (hl v (List.mem_cons_self v rest)) hv hcard
      have hcard2 : (univFinset g \ vism).card < fuel :=
        Nat.lt_of_le_of_lt (card_sdiff_le_of_subset _ _ _ hsub) hcard
      obtain ⟨vis2, ord2, heq2, hsub2⟩ :=
        ih vism ordm (fun w hw => hl w (List.mem_cons_of_mem v hw)) hcard2
      refine ⟨vis2, ord2, ?_, fun x hx => hsub2 (hsub hx)⟩
      rw [ordemFold, if_neg hv, heq]
      exact heq2

theorem ordemDfs_some (g : Graph α) : ∀ fuel no vis ord,
    no ∈ univFinset g → no ∉ vis → (univFinset g \ vis).card < fuel →
    ∃ vis2 ord2, ordemDfs g fuel no (vis, ord) = some (vis2, ord2) ∧ vis ⊆ vis2 := by
  intro fuel
  induction fuel with
  | zero => intro no vis ord _ _ h; omega
  | succ fuel ih =>
    intro no vis ord hnou hno hcard
    have hcard1 : (univFinset g \ insert no vis).card < fuel := by
      have h1 : (univFinset g \ insert no vis).card < (univFinset g \ vis).card :=
        card_sdiff_insert_lt _ _ _ hnou hno
      omega
    obtain ⟨vism, ordm, heqf, hsubf⟩ :=
      ordemFold_some g fuel ih (lookupList g no) (insert no vis) ord
        (fun v hv => lookupList_mem_univ g no v hv) hcard1
    refine ⟨vism, ordm ++ [no], ?_, ?_⟩
    · rw [ordemDfs]
      rw [show ordemFold (fun v t => ordemDfs g fuel v t)
            (lookupList g no) (insert no vis, ord) = some (vism, ordm) from heqf]
    · exact fun x hx => hsubf (Finset.mem_insert_of_mem hx)

theorem ordemOuter_some (g : Graph α) (fuel : Nat)
    (hdfs : ∀ no vis ord, no ∈ univFinset g → no ∉ vis →
      (univFinset g \ vis).card < fuel →
      ∃ vis2 ord2, ordemDfs g fuel no (vis, ord) = some (vis2, ord2) ∧ vis ⊆ vis2) :
    ∀ l vis ord, (∀ v ∈ l, v ∈ univFinset g) → (univFinset g \ vis).card < fuel →
      ∃ vis2 ord2, ordemOuter g fuel l (vis, ord) = some (vis2, ord2) ∧ vis ⊆ vis2 := by
  intro l
  induction l with
  | nil => intro vis ord _ _; exact ⟨vis, ord, rfl, Finset.Subset.refl vis⟩
  | cons no rest ih =>
    intro vis ord hl hcard
    by_cases hv : no ∈ vis
    · rw [ordemOuter, if_pos hv]
      exact ih vis ord (fun w hw => hl w (List.mem_cons_of_mem no hw)) hcard
    · obtain ⟨vism, ordm, heq, hsub⟩ :=
        hdfs no vis ord (hl no (List.mem_cons_self no rest)) hv hcard
      have hcard2 : (univFinset g \ vism).card < fuel :=
        Nat.lt_of_le_of_lt (card_sdiff_le_of_subset _ _ _ hsub) hcard
      obtain ⟨vis2, ord2, heq2, hsub2⟩ :=
        ih vism ordm (fun w hw => hl w (List.mem_cons_of_mem no hw)) hcard2
      refine ⟨vis2, ord2, ?_, fun x hx => hsub2 (hsub hx)⟩
      rw [ordemOuter, if_neg hv, heq]
      exact heq2

/-! ## Topological orderer: the finish-order invariant -/

theorem append_singleton_split (l : List α) (a u : α) (p q : List α)
    (h : l ++ [a] = p ++ u :: q) :
    (p = l ∧ u = a ∧ q = []) ∨ ∃ q2, l = p ++ u :: q2 ∧ q = q2 ++ [a] := by
  rcases List.eq_nil_or_concat q with hq | ⟨q2, b, hq⟩
  · subst hq
    have h2 : l ++ [a] = p ++ [u] := h
    have hlen : l.length = p.length := by
      have h5 := congrArg List.length h2
      simp at h5
      omega
    obtain ⟨h3, h4⟩ := List.append_inj h2 hlen
    refine Or.inl ⟨h3.symm, ?_, rfl⟩
    simpa using h4.symm
  · rw [List.concat_eq_append] at hq
    subst hq
    have h2 : l ++ [a] = (p ++ u :: q2) ++ [b] := by
      rw [h]
      simp
    have hlen : l.length = (p ++ u :: q2).length := by
      have h5 := congrArg List.length h2
      simp at h5 ⊢
      omega
    obtain ⟨h3, h4⟩ := List.append_inj h2 hlen
    have hab : a = b := by simpa using h4
    exact Or.inr ⟨q2, h3, by rw [hab]⟩

theorem OrdInv_nil (g : Graph α) : OrdInv g [] := by
  intro p u q h
  exact absurd h (by simp)

theorem ordemFold_main (g : Graph α) (fuel : Nat)
    (hstep : ∀ no vis ord R vis2 ord2,
      ordemDfs g fuel no (vis, ord) = some (vis2, ord2) →
      vis = R ∪ ord.toFinset → no ∉ vis → no ∈ univFinset g →
      (∀ x ∈ R, Relation.ReflTransGen (Edge g) x no) →
      OrdInv g ord → ord.Nodup →
      ∃ nw, ord2 = ord ++ nw ∧ no ∈ nw ∧ vis2 = R ∪ ord2.toFinset ∧
        OrdInv g ord2 ∧ ord2.Nodup ∧ (∀ x ∈ nw, x ∉ R) ∧
        (∀ x ∈ nw, x ∈ univFinset g)) :
    ∀ l vis ord R vis2 ord2,
      ordemFold (fun v t => ordemDfs g fuel v t) l (vis, ord) = some (vis2, ord2) →
      vis = R ∪ ord.toFinset →
      (∀ v ∈ l, v ∈ univFinset g) →
      (∀ v ∈ l, ∀ x ∈ R, Relation.ReflTransGen (Edge g) x v) →
      OrdInv g ord → ord.Nodup →
      ∃ nw, ord2 = ord ++ nw ∧ vis2 = R ∪ ord2.toFinset ∧
        OrdInv g ord2 ∧ ord2.Nodup ∧ (∀ x ∈ nw, x ∉ R) ∧
        (∀ x ∈ nw, x ∈ univFinset g) ∧ (∀ v ∈ l, v ∈ vis2) := by
  intro l
  induction l with
  | nil =>
    intro vis ord R vis2 ord2 heq hvis _ _ hinv hnd
    rw [ordemFold] at heq
    simp only [Option.some.injEq, Prod.mk.injEq] at heq
    obtain ⟨h1, h2⟩ := heq
    refine ⟨[], by rw [← h2]; simp, by rw [← h1, ← h2]; exact hvis, ?_, ?_, by simp, by simp, by simp⟩
    · rw [← h2]; exact hinv
    · rw [← h2]; exact hnd
  | cons v rest ih =>
    intro vis ord R vis2 ord2 heq hvis hl hRl hinv hnd
    by_cases hv : v ∈ vis
    · rw [ordemFold, if_pos hv] at heq
      obtain ⟨nw, hord, hvis2, hinv2, hnd2, hdisj, huniv, hvl⟩ :=
        ih vis ord R vis2 ord2 heq hvis
          (fun w hw => hl w (List.mem_cons_of_mem v hw))
          (fun w hw => hRl w (List.mem_cons_of_mem v hw)) hinv hnd
      refine ⟨nw, hord, hvis2, hinv2, hnd2, hdisj, huniv, ?_⟩
      intro w hw
      rcases List.mem_cons.mp hw with hwv | hwr
      · rw [hwv, hvis2]
        rw [hvis] at hv
        rcases Finset.mem_union.mp hv with h2 | h2
        · exact Finset.mem_union.mpr (Or.inl h2)
        · refine Finset.mem_union.mpr (Or.inr ?_)
          rw [hord]
          simp only [List.toFinset_append, Finset.mem_union]
          exact Or.inl h2
      · exact hvl w hwr
    · rw [ordemFold, if_neg hv] at heq
      cases hcall : ordemDfs g fuel v (vis, ord) with
      | none => rw [hcall] at heq; cases heq
      | some s2 =>
        rw [hcall] at heq
        obtain ⟨vism, ordm⟩ := s2
        obtain ⟨nw1, hord1, hvnw1, hvism, hinv1, hnd1, hdisj1, huniv1⟩ :=
          hstep v vis ord R vism ordm hcall hvis hv (hl v (List.mem_cons_self v rest))
            (fun x hx => hRl v (List.mem_cons_self v rest) x hx) hinv hnd
        obtain ⟨nw2, hord2, hvis2, hinv2, hnd2, hdisj2, huniv2, hvl2⟩ :=
          ih vism ordm R vis2 ord2 heq hvism
            (fun w hw => hl w (List.mem_cons_of_mem v hw))
            (fun w hw => hRl w (List.mem_cons_of_mem v hw)) hinv1 hnd1
        refine ⟨nw1 ++ nw2, ?_, hvis2, hinv2, hnd2, ?_, ?_, ?_⟩
        · rw [hord2, hord1, List.append_assoc]
        · intro x hx
          rcases List.mem_append.mp hx with h2 | h2
          · exact hdisj1 x h2
          · exact hdisj2 x h2
        · intro x hx
          rcases List.mem_append.mp hx with h2 | h2
          · exact huniv1 x h2
          · exact huniv2 x h2
        · intro w hw
          rcases List.mem_cons.mp hw with hwv | hwr
          · rw [hwv, hvis2]
            refine Finset.mem_union.mpr (Or.inr ?_)
            rw [hord2, hord1]
            simp only [List.toFinset_append, Finset.mem_union, List.mem_toFinset]
            exact Or.inl (Or.inr hvnw1)
          · exact hvl2 w hwr

theorem ordemDfs_main (g : Graph α) : ∀ fuel no vis ord R vis2 ord2,
    ordemDfs g fuel no (vis, ord) = some (vis2, ord2) →
    vis = R ∪ ord.toFinset → no ∉ vis → no ∈ univFinset g →
    (∀ x ∈ R, Relation.ReflTransGen (Edge g) x no) →
    OrdInv g ord → ord.Nodup →
    ∃ nw, ord2 = ord ++ nw ∧ no ∈ nw ∧ vis2 = R ∪ ord2.toFinset ∧
      OrdInv g ord2 ∧ ord2.Nodup ∧ (∀ x ∈ nw, x ∉ R) ∧
      (∀ x ∈ nw, x ∈ univFinset g) := by
  intro fuel
  induction fuel with
  | zero =>
    intro no vis ord R vis2 ord2 heq
    rw [ordemDfs] at heq
    cases heq
  | succ fuel ih =>
    intro no vis ord R vis2 ord2 heq hvis hno hnou hgray hinv hnd
    have hnoR : no ∉ R := fun hc => hno (by rw [hvis]; exact Finset.mem_union.mpr (Or.inl hc))
    have hnoord : no ∉ ord := fun hc => hno (by
      rw [hvis]
      exact Finset.mem_union.mpr (Or.inr (List.mem_toFinset.mpr hc)))
    rw [ordemDfs] at heq
    cases hfold : ordemFold (fun v t => ordemDfs g fuel v t)
        (lookupList g no) (insert no vis, ord) with
    | none => rw [hfold] at heq; cases heq
    | some s2 =>
      rw [hfold] at heq
      obtain ⟨vism, ordm⟩ := s2
      simp only [Option.some.injEq, Prod.mk.injEq] at heq
      obtain ⟨hv2, ho2⟩ := heq
      have hvis1 : insert no vis = insert no R ∪ List.toFinset ord := by
        rw [hvis, Finset.insert_union]
      obtain ⟨nw1, hordm, hvism, hinv1, hnd1, hdisj1, huniv1, hlkvis⟩ :=
        ordemFold_main g fuel ih (lookupList g no) (insert no vis) ord (insert no R)
          vism ordm hfold hvis1
          (fun v hv => lookupList_mem_univ g no v hv)
          (fun v hv x hx => by
            rcases Finset.mem_insert.mp hx with h2 | h2
            · rw [h2]
              exact Relation.ReflTransGen.single hv
            · exact Relation.ReflTransGen.tail (hgray x h2) hv)
          hinv hnd
      have hnonw1 : no ∉ nw1 := fun hc => hdisj1 no hc (Finset.mem_insert_self no R)
      refine ⟨nw1 ++ [no], ?_, ?_, ?_, ?_, ?_, ?_, ?_⟩
      · rw [← ho2, hordm, List.append_assoc]
      · simp
      · rw [← hv2, ← ho2, hvism]
        ext x
        simp only [Finset.mem_union, Finset.mem_insert, List.mem_toFinset,
          List.mem_append, List.mem_singleton]
        tauto
      · rw [← ho2]
        intro p u q hsplit w hwlk
        rcases append_singleton_split ordm no u p q hsplit with ⟨hp, hu, hq⟩ | ⟨q2, h3, hq⟩
        · subst hu
          have hw2 : w ∈ vism := hlkvis w hwlk
          rw [hvism] at hw2
          rcases Finset.mem_union.mp hw2 with h2 | h2
          · rcases Finset.mem_insert.mp h2 with h3 | h3
            · refine Or.inr ⟨w, ?_⟩
              rw [h3] at hwlk ⊢
              exact Relation.TransGen.single hwlk
            · exact Or.inr ⟨w, Relation.TransGen.tail' (hgray w h3) hwlk⟩
          · rw [hp]
            exact Or.inl (List.mem_toFinset.mp h2)
        · exact hinv1 p u q2 h3 w hwlk
      · rw [← ho2]
        rw [List.nodup_append]
        refine ⟨hnd1, by simp, ?_⟩
        intro x hx
        simp only [List.mem_singleton]
        intro hc
        rw [hc] at hx
        rw [hordm] at hx
        rcases List.mem_append.mp hx with h2 | h2
        · exact hnoord h2
        · exact hnonw1 h2
      · intro x hx
        rcases List.mem_append.mp hx with h2 | h2
        · exact fun hc => hdisj1 x h2 (Finset.mem_insert_of_mem hc)
        · rw [List.mem_singleton.mp h2]
          exact hnoR
      · intro x hx
        rcases List.mem_append.mp hx with h2 | h2
        · exact huniv1 x h2
        · rw [List.mem_singleton.mp h2]
          exact hnou

theorem ordemOuter_main (g : Graph α) (fuel : Nat) :
    ∀ l vis ord vis2 ord2,
      ordemOuter g fuel l (vis, ord) = some (vis2, ord2) →
      vis = ord.toFinset →
      (∀ v ∈ l, v ∈ univFinset g) →
      OrdInv g ord → ord.Nodup →
      ∃ nw, ord2 = ord ++ nw ∧ vis2 = ord2.toFinset ∧ OrdInv g ord2 ∧
        ord2.Nodup ∧ (∀ x ∈ nw, x ∈ univFinset g) ∧ (∀ v ∈ l, v ∈ vis2) := by
  intro l
  induction l with
  | nil =>
    intro vis ord vis2 ord2 heq hvis _ hinv hnd
    rw [ordemOuter] at heq
    simp only [Option.some.injEq, Prod.mk.injEq] at heq
    obtain ⟨h1, h2⟩ := heq
    exact ⟨[], by rw [← h2]; simp, by rw [← h1, ← h2]; exact hvis,
      by rw [← h2]; exact hinv, by rw [← h2]; exact hnd, by simp, by simp⟩
  | cons no rest ih =>
    intro vis ord vis2 ord2 heq hvis hl hinv hnd
    by_cases hv : no ∈ vis
    · rw [ordemOuter, if_pos hv] at heq
      obtain ⟨nw, hord, hvis2, hinv2, hnd2, huniv, hvl⟩ :=
        ih vis ord vis2 ord2 heq hvis
          (fun w hw => hl w (List.mem_cons_of_mem no hw)) hinv hnd
      refine ⟨nw, hord, hvis2, hinv2, hnd2, huniv, ?_⟩
      intro w hw
      rcases List.mem_cons.mp hw with hwv | hwr
      · rw [hwv, hvis2, hord]
        rw [hvis] at hv
        simp only [List.toFinset_append, Finset.mem_union]
        exact Or.inl hv
      · exact hvl w hwr
    · rw [ordemOuter, if_neg hv] at heq
      cases hcall : ordemDfs g fuel no (vis, ord) with
      | none => rw [hcall] at heq; cases heq
      | some s2 =>
        rw [hcall] at heq
        obtain ⟨vism, ordm⟩ := s2
        obtain ⟨nw1, hord1, hnonw1, hvism, hinv1, hnd1, hdisj1, huniv1⟩ :=
          ordemDfs_main g fuel no vis ord ∅ vism ordm hcall
            (by rw [hvis, Finset.empty_union]) hv
            (hl no (List.mem_cons_self no rest))
            (by simp) hinv hnd
        have hvism2 : vism = ordm.toFinset := by rw [hvism, Finset.empty_union]
        obtain ⟨nw2, hord2, hvis2, hinv2, hnd2, huniv2, hvl2⟩ :=
          ih vism ordm vis2 ord2 heq hvism2
            (fun w hw => hl w (List.mem_cons_of_mem no hw)) hinv1 hnd1
        refine ⟨nw1 ++ nw2, ?_, hvis2, hinv2, hnd2, ?_, ?_⟩
        · rw [hord2, hord1, List.append_assoc]
        · intro x hx
          rcases List.mem_append.mp hx with h2 | h2
          · exact huniv1 x h2
          · exact huniv2 x h2
        · intro w hw
          rcases List.mem_cons.mp hw with hwv | hwr
          · rw [hwv, hvis2, hord2, hord1]
            simp only [List.toFinset_append, Finset.mem_union, List.mem_toFinset]
            exact Or.inl (Or.inr hnonw1)
          · exact hvl2 w hwr

/-! ## Claims C3, C4, C9 -/

theorem ordem_run (g : Graph α) :
    ∃ vis2 ord2, ordemOuter g (bound g) (keys g) (∅, []) = some (vis2, ord2) ∧
      ordem_instalacao g = ord2.reverse ∧ vis2 = ord2.toFinset ∧ OrdInv g ord2 ∧
      ord2.Nodup ∧ (∀ x ∈ ord2, x ∈ univFinset g) ∧ (∀ v ∈ keys g, v ∈ vis2) := by
  obtain ⟨vis2, ord2, houter, -⟩ :=
    ordemOuter_some g (bound g) (ordemDfs_some g (bound g)) (keys g) ∅ []
      (fun v hv => key_mem_univ g v hv)
      (by rw [Finset.sdiff_empty]; exact Nat.lt_succ_self _)
  obtain ⟨nw, hord, hvis2, hinv2, hnd2, huniv, hkvis⟩ :=
    ordemOuter_main g (bound g) (keys g) ∅ [] vis2 ord2 houter (by simp)
      (fun v hv => key_mem_univ g v hv) (OrdInv_nil g) List.nodup_nil
  refine ⟨vis2, ord2, houter, ?_, hvis2, hinv2, hnd2, ?_, hkvis⟩
  · rw [ordem_instalacao, houter]
    rfl
  · intro x hx
    rw [hord] at hx
    simp only [List.nil_append] at hx
    exact huniv x hx

/-- C9: installOrder terminates on every finite graph, cyclic or not: the
traversal with the canonical fuel returns a result, and the visited set makes
each node appear at most once in the finish order. -/
theorem C9_ordem_terminates (g : Graph α) :
    (∃ s, ordemOuter g (bound g) (keys g) (∅, []) = some s) ∧
    (ordem_instalacao g).Nodup := by
  obtain ⟨vis2, ord2, houter, hrev, -, -, hnd2, -, -⟩ := ordem_run g
  exact ⟨⟨(vis2, ord2), houter⟩, by rw [hrev]; exact List.nodup_reverse.mpr hnd2⟩

/-- C3: on an acyclic well-formed graph, installOrder is a permutation of the
graph's node set (every node appears exactly once). -/
theorem C3_ordem_perm (g : Graph α) (hwf : WFGraph g) (hac : ¬ HasCycle g) :
    (ordem_instalacao g).Perm (keys g) := by
  obtain ⟨vis2, ord2, houter, hrev, hvis2, hinv2, hnd2, huniv, hkvis⟩ := ordem_run g
  have hmem : ∀ x, x ∈ ord2 ↔ x ∈ keys g := by
    intro x
    constructor
    · intro hx
      have hx2 := huniv x hx
      simp only [univFinset, univList, List.mem_toFinset, List.mem_append] at hx2
      rcases hx2 with h2 | h2
      · exact h2
      · exact hwf.2 x h2
    · intro hx
      have h2 := hkvis x hx
      rw [hvis2] at h2
      exact List.mem_toFinset.mp h2
  have hperm : ord2.Perm (keys g) := by
    apply List.perm_of_nodup_nodup_toFinset_eq hnd2 hwf.1
    ext x
    simp only [List.mem_toFinset]
    exact hmem x
  rw [hrev]
  exact (List.reverse_perm ord2).trans hperm

/-- C4: installOrder is the reverse of the dfs finish order, and on an acyclic
graph every edge A -> B (A depends on B) has A strictly before B in the
returned order. -/
theorem C4_ordem_edge_order (g : Graph α) (hac : ¬ HasCycle g) :
    ordem_instalacao g =
      (((ordemOuter g (bound g) (keys g) (∅, [])).getD (∅, [])).2).reverse ∧
    ∀ a b, Edge g a b →
      ∃ p q r, ordem_instalacao g = p ++ a :: (q ++ b :: r) := by
  obtain ⟨vis2, ord2, houter, hrev, hvis2, hinv2, hnd2, huniv, hkvis⟩ := ordem_run g
  refine ⟨rfl, ?_⟩
  intro a b hab
  have hak : a ∈ keys g := by
    apply lookupList_ne_nil_key g a
    intro hc
    rw [show Edge g a b = (b ∈ lookupList g a) from rfl, hc] at hab
    simp at hab
  have haord : a ∈ ord2 := by
    have h2 := hkvis a hak
    rw [hvis2] at h2
    exact List.mem_toFinset.mp h2
  obtain ⟨p1, q1, hsplit⟩ := List.append_of_mem haord
  have hbp1 : b ∈ p1 := by
    rcases hinv2 p1 a q1 hsplit b hab with h2 | ⟨w, hw⟩
    · exact h2
    · exact absurd ⟨w, hw⟩ hac
  obtain ⟨p2, p3, hsplit2⟩ := List.append_of_mem hbp1
  refine ⟨q1.reverse, p3.reverse, p2.reverse, ?_⟩
  rw [hrev, hsplit, hsplit2]
  simp

/-! ## Cycle detector: fuel sufficiency -/

theorem cicloFold_some (g : Graph α) (fuel : Nat) (rec2 : Finset α)
    (hstep : ∀ v vs, v ∈ univFinset g → v ∉ vs → (univFinset g \ vs).card < fuel →
      ∃ b vs2, cicloDfs g fuel v vs rec2 = some (b, vs2) ∧ vs ⊆ vs2) :
    ∀ l vis, (∀ v ∈ l, v ∈ univFinset g) → (univFinset g \ vis).card < fuel →
      ∃ b vis2, cicloFold (fun v vs => cicloDfs g fuel v vs rec2) rec2 l vis =
        some (b, vis2) ∧ vis ⊆ vis2 := by
  intro l
  induction l with
  | nil => intro vis _ _; exact ⟨false, vis, rfl, Finset.Subset.refl vis⟩
  | cons v rest ih =>
    intro vis hl hcard
    by_cases hv : v ∈ vis
    · by_cases hr : v ∈ rec2
      · exact ⟨true, vis, by rw [cicloFold, if_pos hv, if_pos hr], Finset.Subset.refl vis⟩
      · rw [cicloFold, if_pos hv, if_neg hr]
        exact ih vis (fun w hw => hl w (List.mem_cons_of_mem v hw)) hcard
    · obtain ⟨b, vs2, heq, hsub⟩ :=
        hstep v vis (hl v (List.mem_cons_self v rest)) hv hcard
      cases b with
      | true =>
        refine ⟨true, vs2, ?_, hsub⟩
        rw [cicloFold, if_neg hv, heq]
      | false =>
        have hcard2 : (univFinset g \ vs2).card < fuel :=
          Nat.lt_of_le_of_lt (card_sdiff_le_of_subset _ _ _ hsub) hcard
        obtain ⟨b2, vis2, heq2, hsub2⟩ :=
          ih vs2 (fun w hw => hl w (List.mem_cons_of_mem v hw)) hcard2
        refine ⟨b2, vis2, ?_, fun x hx => hsub2 (hsub hx)⟩
        rw [cicloFold, if_neg hv, heq]
        exact heq2

theorem cicloDfs_some (g : Graph α) : ∀ fuel no vis recSet,
    no ∈ univFinset g → no ∉ vis → (univFinset g \ vis).card < fuel →
    ∃ b vis2, cicloDfs g fuel no vis recSet = some (b, vis2) ∧ vis ⊆ vis2 := by
  intro fuel
  induction fuel with
  | zero => intro no vis recSet _ _ h; omega
  | succ fuel ih =>
    intro no vis recSet hnou hno hcard
    have hcard1 : (univFinset g \ insert no vis).card < fuel := by
      have h1 : (univFinset g \ insert no vis).card < (univFinset g \ vis).card :=
        card_sdiff_insert_lt _ _ _ hnou hno
      omega
    obtain ⟨b, vis2, heq, hsub⟩ :=
      cicloFold_some g fuel (insert no recSet)
        (fun v vs hvu hvv hc => ih v vs (insert no recSet) hvu hvv hc)
        (lookupList g no) (insert no vis)
        (fun v hv => lookupList_mem_univ g no v hv) hcard1
    refine ⟨b, vis2, ?_, fun x hx => hsub (Finset.mem_insert_of_mem hx)⟩
    rw [cicloDfs]
    exact heq

theorem cicloOuter_some (g : Graph α) (fuel : Nat) :
    ∀ l vis, (∀ v ∈ l, v ∈ univFinset g) → (univFinset g \ vis).card < fuel →
      ∃ b, cicloOuter g fuel l vis = some b := by
  intro l
  induction l with
  | nil => intro vis _ _; exact ⟨false, rfl⟩
  | cons no rest ih =>
    intro vis hl hcard
    by_cases hv : no ∈ vis
    · rw [cicloOuter, if_pos hv]
      exact ih vis (fun w hw => hl w (List.mem_cons_of_mem no hw)) hcard
    · obtain ⟨b, vis2, heq, hsub⟩ :=
        cicloDfs_some g fuel no vis ∅ (hl no (List.mem_cons_self no rest)) hv hcard
      cases b with
      | true => exact ⟨true, by rw [cicloOuter, if_neg hv, heq]⟩
      | false =>
        have hcard2 : (univFinset g \ vis2).card < fuel :=
          Nat.lt_of_le_of_lt (card_sdiff_le_of_subset _ _ _ hsub) hcard
        obtain ⟨b2, heq2⟩ := ih vis2 (fun w hw => hl w (List.mem_cons_of_mem no hw)) hcard2
        refine ⟨b2, ?_⟩
        rw [cicloOuter, if_neg hv, heq]
        exact heq2

/-! ## Cycle detector: soundness of a True answer -/

theorem cicloFold_true (g : Graph α) (fuel : Nat) (no : α) (rec2 : Finset α)
    (hstep : ∀ v vs vs2, cicloDfs g fuel v vs rec2 = some (true, vs2) →
      (∀ x ∈ rec2, Relation.ReflTransGen (Edge g) x v) → HasCycle g) :
    ∀ l vis vis2, (∀ v ∈ l, Edge g no v) →
      (∀ x ∈ rec2, Relation.ReflTransGen (Edge g) x no) →
      cicloFold (fun v vs => cicloDfs g fuel v vs rec2) rec2 l vis = some (true, vis2) →
      HasCycle g := by
  intro l
  induction l with
  | nil =>
    intro vis vis2 _ _ heq
    rw [cicloFold] at heq
    simp at heq
  | cons v rest ih =>
    intro vis vis2 hl hrec heq
    by_cases hv : v ∈ vis
    · by_cases hr : v ∈ rec2
      · exact ⟨v, Relation.TransGen.tail' (hrec v hr) (hl v (List.mem_cons_self v rest))⟩
      · rw [cicloFold, if_pos hv, if_neg hr] at heq
        exact ih vis vis2 (fun w hw => hl w (List.mem_cons_of_mem v hw)) hrec heq
    · rw [cicloFold, if_neg hv] at heq
      cases hcall : cicloDfs g fuel v vis rec2 with
      | none => rw [hcall] at heq; cases heq
      | some bv =>
        obtain ⟨b, vs2⟩ := bv
        rw [hcall] at heq
        cases b with
        | true =>
          refine hstep v vis vs2 hcall ?_
          intro x hx
          exact Relation.ReflTransGen.tail (hrec x hx) (hl v (List.mem_cons_self v rest))
        | false =>
          exact ih vs2 vis2 (fun w hw => hl w (List.mem_cons_of_mem v hw)) hrec heq

theorem cicloDfs_true (g : Graph α) : ∀ fuel no vis recSet vis2,
    cicloDfs g fuel no vis recSet = some (true, vis2) →
    (∀ x ∈ recSet, Relation.ReflTransGen (Edge g) x no) →
    HasCycle g := by
  intro fuel
  induction fuel with
  | zero =>
    intro no vis recSet vis2 heq
    rw [cicloDfs] at heq
    cases heq
  | succ fuel ih =>
    intro no vis recSet vis2 heq hrec
    rw [cicloDfs] at heq
    refine cicloFold_true g fuel no (insert no recSet)
      (fun v vs vs2 hc hr => ih v vs (insert no recSet) vs2 hc hr)
      (lookupList g no) (insert no vis) vis2 (fun v hv => hv) ?_ heq
    intro x hx
    rcases Finset.mem_insert.mp hx with h2 | h2
    · rw [h2]
    · exact hrec x h2

theorem cicloOuter_true (g : Graph α) (fuel : Nat) :
    ∀ l vis, cicloOuter g fuel l vis = some true → HasCycle g := by
  intro l
  induction l with
  | nil =>
    intro vis heq
    rw [cicloOuter] at heq
    simp at heq
  | cons no rest ih =>
    intro vis heq
    by_cases hv : no ∈ vis
    · rw [cicloOuter, if_pos hv] at heq
      exact ih vis heq
    · rw [cicloOuter, if_neg hv] at heq
      cases hcall : cicloDfs g fuel no vis ∅ with
      | none => rw [hcall] at heq; cases heq
      | some bv =>
        obtain ⟨b, vs2⟩ := bv
        rw [hcall] at heq
        cases b with
        | true => exact cicloDfs_true g fuel no vis ∅ vs2 hcall (by simp)
        | false => exact ih vs2 heq

/-! ## Cycle detector: a False answer certifies acyclicity -/

theorem CInv_nil (g : Graph α) : CInv g [] := by
  intro p u q h
  exact absurd h (by simp)

theorem cicloFold_false (g : Graph α) (fuel : Nat) (rec2 : Finset α)
    (hstep : ∀ v vs bl vs2, cicloDfs g fuel v vs rec2 = some (false, vs2) →
      vs = rec2 ∪ bl.toFinset → v ∉ vs → CInv g bl → bl.Nodup →
      ∃ nb, vs2 = rec2 ∪ (bl ++ nb).toFinset ∧ v ∈ nb ∧ CInv g (bl ++ nb) ∧
        (bl ++ nb).Nodup ∧ (∀ x ∈ nb, x ∉ rec2)) :
    ∀ l vis bl vis2,
      cicloFold (fun v vs => cicloDfs g fuel v vs rec2) rec2 l vis = some (false, vis2) →
      vis = rec2 ∪ bl.toFinset → CInv g bl → bl.Nodup →
      ∃ nb, vis2 = rec2 ∪ (bl ++ nb).toFinset ∧ CInv g (bl ++ nb) ∧ (bl ++ nb).Nodup ∧
        (∀ x ∈ nb, x ∉ rec2) ∧ (∀ v ∈ l, v ∈ vis2 ∧ v ∉ rec2) := by
  intro l
  induction l with
  | nil =>
    intro vis bl vis2 heq hvis hinv hnd
    rw [cicloFold] at heq
    simp only [Option.some.injEq, Prod.mk.injEq] at heq
    refine ⟨[], ?_, by simpa using hinv, by simpa using hnd, by simp, by simp⟩
    rw [← heq.2]
    simpa using hvis
  | cons v rest ih =>
    intro vis bl vis2 heq hvis hinv hnd
    by_cases hv : v ∈ vis
    · by_cases hr : v ∈ rec2
      · rw [cicloFold, if_pos hv, if_pos hr] at heq
        simp at heq
      · rw [cicloFold, if_pos hv, if_neg hr] at heq
        obtain ⟨nb, hvis2, hinv2, hnd2, hdisj, hvl⟩ :=
          ih vis bl vis2 heq hvis hinv hnd
        refine ⟨nb, hvis2, hinv2, hnd2, hdisj, ?_⟩
        intro w hw
        rcases List.mem_cons.mp hw with hwv | hwr
        · constructor
          · rw [hwv, hvis2]
            rw [hvis] at hv
            rcases Finset.mem_union.mp hv with h2 | h2
            · exact Finset.mem_union.mpr (Or.inl h2)
            · refine Finset.mem_union.mpr (Or.inr ?_)
              simp only [List.toFinset_append, Finset.mem_union]
              exact Or.inl h2
          · rw [hwv]; exact hr
        · exact hvl w hwr
    · rw [cicloFold, if_neg hv] at heq
      cases hcall : cicloDfs g fuel v vis rec2 with
      | none => rw [hcall] at heq; cases heq
      | some bv =>
        obtain ⟨b, vs2⟩ := bv
        rw [hcall] at heq
        cases b with
        | true => simp at heq
        | false =>
          obtain ⟨nb1, hvs2, hvnb1, hinv1, hnd1, hdisj1⟩ :=
            hstep v vis bl vs2 hcall hvis hv hinv hnd
          obtain ⟨nb2, hvis2, hinv2, hnd2, hdisj2, hvl2⟩ :=
            ih vs2 (bl ++ nb1) vis2 heq hvs2 hinv1 hnd1
          refine ⟨nb1 ++ nb2, ?_, ?_, ?_, ?_, ?_⟩
          · rw [hvis2, List.append_assoc]
          · rw [← List.append_assoc]; exact hinv2
          · rw [← List.append_assoc]; exact hnd2
          · intro x hx
            rcases List.mem_append.mp hx with h2 | h2
            · exact hdisj1 x h2
            · exact hdisj2 x h2
          · intro w hw
            rcases List.mem_cons.mp hw with hwv | hwr
            · constructor
              · rw [hwv, hvis2]
                refine Finset.mem_union.mpr (Or.inr ?_)
                simp only [List.toFinset_append, Finset.mem_union, List.mem_toFinset]
                exact Or.inl (Or.inr hvnb1)
              · rw [hwv]; exact hdisj1 v hvnb1
            · exact hvl2 w hwr

theorem cicloDfs_false (g : Graph α) : ∀ fuel no vis recSet bl vis2,
    cicloDfs g fuel no vis recSet = some (false, vis2) →
    vis = recSet ∪ bl.toFinset → no ∉ vis → CInv g bl → bl.Nodup →
    ∃ nb, vis2 = recSet ∪ (bl ++ nb).toFinset ∧ no ∈ nb ∧ CInv g (bl ++ nb) ∧
      (bl ++ nb).Nodup ∧ (∀ x ∈ nb, x ∉ recSet) := by
  intro fuel
  induction fuel with
  | zero =>
    intro no vis recSet bl vis2 heq
    rw [cicloDfs] at heq
    cases heq
  | succ fuel ih =>
    intro no vis recSet bl vis2 heq hvis hno hinv hnd
    have hnoR : no ∉ recSet := fun hc => hno (by
      rw [hvis]; exact Finset.mem_union.mpr (Or.inl hc))
    have hnobl : no ∉ bl := fun hc => hno (by
      rw [hvis]; exact Finset.mem_union.mpr (Or.inr (List.mem_toFinset.mpr hc)))
    rw [cicloDfs] at heq
    have hvis1 : insert no vis = insert no recSet ∪ bl.toFinset := by
      rw [hvis, Finset.insert_union]
    obtain ⟨nb1, hvis2, hinv1, hnd1, hdisj1, hlk⟩ :=
      cicloFold_false g fuel (insert no recSet)
        (fun v vs bl2 vs2 hc h1 h2 h3 h4 => ih v vs (insert no recSet) bl2 vs2 hc h1 h2 h3 h4)
        (lookupList g no) (insert no vis) bl vis2 heq hvis1 hinv hnd
    have hnonb1 : no ∉ nb1 := fun hc => hdisj1 no hc (Finset.mem_insert_self no recSet)
    refine ⟨nb1 ++ [no], ?_, ?_, ?_, ?_, ?_⟩
    · rw [hvis2]
      ext x
      simp only [Finset.mem_union, Finset.mem_insert, List.mem_toFinset, List.mem_append,
        List.mem_singleton]
      tauto
    · simp
    · rw [← List.append_assoc]
      intro p u q hsplit w hwlk
      rcases append_singleton_split (bl ++ nb1) no u p q hsplit with ⟨hp, hu, hq⟩ | ⟨q2, h3, hq⟩
      · subst hu
        obtain ⟨hw2, hw3⟩ := hlk w hwlk
        rw [hvis2] at hw2
        rcases Finset.mem_union.mp hw2 with h2 | h2
        · exact absurd h2 hw3
        · rw [hp]
          exact List.mem_toFinset.mp h2
      · exact hinv1 p u q2 h3 w hwlk
    · rw [← List.append_assoc, List.nodup_append]
      refine ⟨hnd1, by simp, ?_⟩
      intro x hx
      simp only [List.mem_singleton]
      intro hc
      rw [hc] at hx
      rcases List.mem_append.mp hx with h2 | h2
      · exact hnobl h2
      · exact hnonb1 h2
    · intro x hx
      rcases List.mem_append.mp hx with h2 | h2
      · exact fun hc => hdisj1 x h2 (Finset.mem_insert_of_mem hc)
      · rw [List.mem_singleton.mp h2]
        exact hnoR

theorem cicloOuter_false (g : Graph α) (fuel : Nat) :
    ∀ l vis bl, cicloOuter g fuel l vis = some false →
      vis = bl.toFinset → CInv g bl → bl.Nodup →
      ∃ nb, CInv g (bl ++ nb) ∧ (bl ++ nb).Nodup ∧ ∀ v ∈ l, v ∈ bl ++ nb := by
  intro l
  induction l with
  | nil =>
    intro vis bl _ _ hinv hnd
    exact ⟨[], by simpa using hinv, by simpa using hnd, by simp⟩
  | cons no rest ih =>
    intro vis bl heq hvis hinv hnd
    by_cases hv : no ∈ vis
    · rw [cicloOuter, if_pos hv] at heq
      obtain ⟨nb, hinv2, hnd2, hcov⟩ := ih vis bl heq hvis hinv hnd
      refine ⟨nb, hinv2, hnd2, ?_⟩
      intro w hw
      rcases List.mem_cons.mp hw with hwv | hwr
      · rw [hwv]
        rw [hvis] at hv
        exact List.mem_append.mpr (Or.inl (List.mem_toFinset.mp hv))
      · exact hcov w hwr
    · rw [cicloOuter, if_neg hv] at heq
      cases hcall : cicloDfs g fuel no vis ∅ with
      | none => rw [hcall] at heq; cases heq
      | some bv =>
        obtain ⟨b, vs2⟩ := bv
        rw [hcall] at heq
        cases b with
        | true => simp at heq
        | false =>
          obtain ⟨nb1, hvs2, hvnb1, hinv1, hnd1, -⟩ :=
            cicloDfs_false g fuel no vis ∅ bl vs2 hcall
              (by rw [hvis, Finset.empty_union]) hv hinv hnd
          have hvs2b : vs2 = (bl ++ nb1).toFinset := by
            rw [hvs2, Finset.empty_union]
          obtain ⟨nb2, hinv2, hnd2, hcov2⟩ := ih vs2 (bl ++ nb1) heq hvs2b hinv1 hnd1
          refine ⟨nb1 ++ nb2, ?_, ?_, ?_⟩
          · rw [← List.append_assoc]; exact hinv2
          · rw [← List.append_assoc]; exact hnd2
          · intro w hw
            rcases List.mem_cons.mp hw with hwv | hwr
            · rw [hwv, ← List.append_assoc]
              exact List.mem_append.mpr (Or.inl (List.mem_append.mpr (Or.inr hvnb1)))
            · rw [← List.append_assoc]
              exact hcov2 w hwr

/-! ## From the black-list invariant to acyclicity -/

theorem posIn_lt_of_mem_left (p rest : List α) (v : α) (hv : v ∈ p) :
    posIn (p ++ rest) v < p.length := by
  induction p with
  | nil => simp at hv
  | cons x xs ih =>
    rw [List.cons_append, posIn]
    by_cases hx : x = v
    · rw [if_pos hx]
      simp
    · rw [if_neg hx]
      have hv2 : v ∈ xs := by
        rcases List.mem_cons.mp hv with h2 | h2
        · exact absurd h2.symm hx
        · exact h2
      have := ih hv2
      simp only [List.length_cons]
      omega

theorem posIn_eq_of_not_mem_left (p : List α) (u : α) (q : List α) (hu : u ∉ p) :
    posIn (p ++ u :: q) u = p.length := by
  induction p with
  | nil => simp [posIn]
  | cons x xs ih =>
    rw [List.cons_append, posIn]
    have hx : x ≠ u := fun hc => hu (by rw [hc]; exact List.mem_cons_self u xs)
    rw [if_neg hx]
    have hu2 : u ∉ xs := fun hc => hu (List.mem_cons_of_mem x hc)
    rw [ih hu2]
    simp

theorem edge_rank (g : Graph α) (bl : List α) (hinv : CInv g bl) (hnd : bl.Nodup)
    (u v : α) (hu : u ∈ bl) (he : Edge g u v) :
    v ∈ bl ∧ posIn bl v < posIn bl u := by
  obtain ⟨p, q, hsplit⟩ := List.append_of_mem hu
  have hvp : v ∈ p := hinv p u q hsplit v he
  have hunp : u ∉ p := by
    rw [hsplit] at hnd
    obtain ⟨-, -, hdisj⟩ := List.nodup_append.mp hnd
    exact fun hc => hdisj hc (List.mem_cons_self u q)
  constructor
  · rw [hsplit]
    exact List.mem_append.mpr (Or.inl hvp)
  · rw [hsplit, posIn_eq_of_not_mem_left p u q hunp]
    exact posIn_lt_of_mem_left p (u :: q) v hvp

theorem transGen_rank (g : Graph α) (bl : List α) (hinv : CInv g bl) (hnd : bl.Nodup)
    (u w : α) (h : Relation.TransGen (Edge g) u w) (hu : u ∈ bl) :
    w ∈ bl ∧ posIn bl w < posIn bl u := by
  induction h with
  | single h2 => exact edge_rank g bl hinv hnd u _ hu h2
  | tail h1 h2 ih =>
    obtain ⟨hb, hpos⟩ := ih
    obtain ⟨hw, hpos2⟩ := edge_rank g bl hinv hnd _ _ hb h2
    exact ⟨hw, Nat.lt_trans hpos2 hpos⟩

theorem transGen_head_edge (g : Graph α) {a c : α}
    (h : Relation.TransGen (Edge g) a c) : ∃ y, Edge g a y := by
  induction h with
  | single h2 => exact ⟨_, h2⟩
  | tail _ _ ih => exact ih

theorem noCycle_of_CInv (g : Graph α) (bl : List α) (hinv : CInv g bl) (hnd : bl.Nodup)
    (hcov : ∀ x, lookupList g x ≠ [] → x ∈ bl) : ¬ HasCycle g := by
  rintro ⟨n, hn⟩
  obtain ⟨y, hy⟩ := transGen_head_edge g hn
  have hnbl : n ∈ bl := by
    apply hcov n
    intro hc
    rw [show Edge g n y = (y ∈ lookupList g n) from rfl, hc] at hy
    simp at hy
  obtain ⟨-, hlt⟩ := transGen_rank g bl hinv hnd n n hn hnbl
  omega

/-! ## Claim C1 -/

theorem temCiclo_complete (g : Graph α) (h : HasCycle g) : tem_ciclo g = true := by
  cases houter : cicloOuter g (bound g) (keys g) ∅ with
  | none =>
    obtain ⟨b, hb⟩ := cicloOuter_some g (bound g) (keys g) ∅
      (fun v hv => key_mem_univ g v hv)
      (by rw [Finset.sdiff_empty]; exact Nat.lt_succ_self _)
    rw [houter] at hb
    cases hb
  | some b =>
    cases b with
    | true => rw [tem_ciclo, houter]; rfl
    | false =>
      exfalso
      obtain ⟨nb, hinv, hnd, hcov⟩ :=
        cicloOuter_false g (bound g) (keys g) ∅ [] houter (by simp) (CInv_nil g)
          List.nodup_nil
      refine noCycle_of_CInv g ([] ++ nb) hinv hnd ?_ h
      intro x hx
      exact hcov x (lookupList_ne_nil_key g x hx)

/-- C1: for every mapping satisfying the section-3 invariant, hasCycle is
true iff the graph contains a directed cycle (self-loops included, cycles in
components disconnected from the first iterated nodes included). -/
theorem C1_tem_ciclo_iff (g : Graph α) (hwf : WFGraph g) :
    tem_ciclo g = true ↔ HasCycle g := by
  constructor
  · intro h
    cases houter : cicloOuter g (bound g) (keys g) ∅ with
    | none =>
      rw [tem_ciclo, houter] at h
      simp at h
    | some b =>
      cases b with
      | false =>
        rw [tem_ciclo, houter] at h
        simp at h
      | true => exact cicloOuter_true g (bound g) (keys g) ∅ houter
  · exact temCiclo_complete g

/-- Witness for C1 at the 3-cycle fixture. -/
theorem C1_tem_ciclo_iff_witness :
    WFGraph gCycle3 ∧ (tem_ciclo gCycle3 = true ↔ HasCycle gCycle3) :=
  ⟨by unfold WFGraph; decide, C1_tem_ciclo_iff gCycle3 (by unfold WFGraph; decide)⟩

/-- Witness for C3 at the acyclic diamond fixture: acyclicity is certified by
running the (complete) cycle detector. -/
theorem C3_ordem_perm_witness :
    (WFGraph gDiamond ∧ ¬ HasCycle gDiamond) ∧
      (ordem_instalacao gDiamond).Perm (keys gDiamond) := by
  have hac : ¬ HasCycle gDiamond := fun h =>
    absurd (temCiclo_complete gDiamond h) (by decide)
  have hwf : WFGraph gDiamond := by unfold WFGraph; decide
  exact ⟨⟨hwf, hac⟩, C3_ordem_perm gDiamond hwf hac⟩

/-- Witness for C4 at the acyclic diamond fixture. -/
theorem C4_ordem_edge_order_witness :
    (¬ HasCycle gDiamond) ∧
      (ordem_instalacao gDiamond =
        (((ordemOuter gDiamond (bound gDiamond) (keys gDiamond) (∅, [])).getD
          (∅, [])).2).reverse ∧
      ∀ a b, Edge gDiamond a b →
        ∃ p q r, ordem_instalacao gDiamond = p ++ a :: (q ++ b :: r)) := by
  have hac : ¬ HasCycle gDiamond := fun h =>
    absurd (temCiclo_complete gDiamond h) (by decide)
  exact ⟨hac, C4_ordem_edge_order gDiamond hac⟩

/-! ## Tarjan: basic state lemmas -/

theorem discovered_iff_isSome (s : TState α) (x : α) :
    Discovered s x ↔ (s.indices x).isSome = true := by
  constructor
  · rintro ⟨i, hi⟩
    rw [hi]
    rfl
  · intro h
    cases hi : s.indices x with
    | none => rw [hi] at h; cases h
    | some i => exact ⟨i, hi⟩

theorem push_indices_self (s : TState α) (no : α) :
    (tarjanPush s no).indices no = some s.index := by simp [tarjanPush]

theorem push_indices_other (s : TState α) (no x : α) (h : x ≠ no) :
    (tarjanPush s no).indices x = s.indices x := by simp [tarjanPush, h]

theorem push_lowlinks_self (s : TState α) (no : α) :
    (tarjanPush s no).lowlinks no = some s.index := by simp [tarjanPush]

theorem push_lowlinks_other (s : TState α) (no x : α) (h : x ≠ no) :
    (tarjanPush s no).lowlinks x = s.lowlinks x := by simp [tarjanPush, h]

theorem discovered_push (s : TState α) (no x : α) :
    Discovered (tarjanPush s no) x ↔ x = no ∨ Discovered s x := by
  constructor
  · rintro ⟨i, hi⟩
    by_cases hx : x = no
    · exact Or.inl hx
    · rw [push_indices_other s no x hx] at hi
      exact Or.inr ⟨i, hi⟩
  · rintro (hx | ⟨i, hi⟩)
    · exact ⟨s.index, by rw [hx, push_indices_self]⟩
    · by_cases hx : x = no
      · exact ⟨s.index, by rw [hx, push_indices_self]⟩
      · exact ⟨i, by rw [push_indices_other s no x hx]; exact hi⟩

theorem setLow_lowlinks_self (s : TState α) (no : α) (v : Nat) :
    (setLow s no v).lowlinks no = some v := by simp [setLow]

theorem setLow_lowlinks_other (s : TState α) (no x : α) (v : Nat) (h : x ≠ no) :
    (setLow s no v).lowlinks x = s.lowlinks x := by simp [setLow, h]

theorem setLow_indices (s : TState α) (no : α) (v : Nat) :
    (setLow s no v).indices = s.indices := rfl

theorem setLow_pilha (s : TState α) (no : α) (v : Nat) :
    (setLow s no v).pilha = s.pilha := rfl

theorem setLow_naPilha (s : TState α) (no : α) (v : Nat) :
    (setLow s no v).naPilha = s.naPilha := rfl

theorem setLow_cfc (s : TState α) (no : α) (v : Nat) :
    (setLow s no v).cfc = s.cfc := rfl

theorem setLow_index (s : TState α) (no : α) (v : Nat) :
    (setLow s no v).index = s.index := rfl

theorem discovered_setLow (s : TState α) (no : α) (v : Nat) (x : α) :
    Discovered (setLow s no v) x ↔ Discovered s x := Iff.rfl

theorem getIdx_setLow (s : TState α) (no : α) (v : Nat) (x : α) :
    getIdx (setLow s no v) x = getIdx s x := rfl

theorem getLow_setLow_self (s : TState α) (no : α) (v : Nat) :
    getLow (setLow s no v) no = v := by
  rw [getLow, setLow_lowlinks_self]
  rfl

theorem getLow_setLow_other (s : TState α) (no x : α) (v : Nat) (h : x ≠ no) :
    getLow (setLow s no v) x = getLow s x := by
  rw [getLow, setLow_lowlinks_other s no x v h]
  rfl

theorem undiscCard_setLow (g : Graph α) (s : TState α) (no : α) (v : Nat) :
    undiscCard g (setLow s no v) = undiscCard g s := rfl

theorem popUntilO_append (l : List α) (no : α) (r : List α) (h : no ∉ l) :
    popUntilO (l ++ no :: r) no = some (l ++ [no], r) := by
  induction l with
  | nil => simp [popUntilO]
  | cons x xs ih =>
    have hx : x ≠ no := fun hc => h (by rw [hc]; exact List.mem_cons_self no xs)
    have h2 : no ∉ xs := fun hc => h (List.mem_cons_of_mem x hc)
    rw [List.cons_append, popUntilO, if_neg hx, ih h2]
    rfl

theorem tarjanPop_indices (s : TState α) (comp rest : List α) :
    (tarjanPop s comp rest).indices = s.indices := rfl

theorem tarjanPop_lowlinks (s : TState α) (comp rest : List α) :
    (tarjanPop s comp rest).lowlinks = s.lowlinks := rfl

theorem tarjanPop_index (s : TState α) (comp rest : List α) :
    (tarjanPop s comp rest).index = s.index := rfl

theorem tarjanPop_pilha (s : TState α) (comp rest : List α) :
    (tarjanPop s comp rest).pilha = rest := rfl

theorem undiscCard_pop (g : Graph α) (s : TState α) (comp rest : List α) :
    undiscCard g (tarjanPop s comp rest) = undiscCard g s := rfl

theorem undiscCard_le_of_mono (g : Graph α) (s s2 : TState α)
    (h : ∀ x i, s.indices x = some i → s2.indices x = some i) :
    undiscCard g s2 ≤ undiscCard g s := by
  apply Finset.card_le_card
  intro x hx
  rw [Finset.mem_filter] at hx ⊢
  refine ⟨hx.1, ?_⟩
  cases hs : s.indices x with
  | none => rfl
  | some i =>
    have := h x i hs
    rw [hx.2] at this
    cases this

theorem undiscCard_push_lt (g : Graph α) (s : TState α) (no : α)
    (hfresh : ¬ Discovered s no) (hu : no ∈ univFinset g) :
    undiscCard g (tarjanPush s no) < undiscCard g s := by
  have hnone : s.indices no = none := by
    cases hi : s.indices no with
    | none => rfl
    | some i => exact absurd ⟨i, hi⟩ hfresh
  apply Finset.card_lt_card
  rw [Finset.ssubset_iff_of_subset]
  · exact ⟨no, Finset.mem_filter.mpr ⟨hu, hnone⟩, by
      rw [Finset.mem_filter]
      rintro ⟨-, hc⟩
      rw [push_indices_self] at hc
      cases hc⟩
  · intro x hx
    rw [Finset.mem_filter] at hx ⊢
    refine ⟨hx.1, ?_⟩
    by_cases hxno : x = no
    · exfalso
      rw [hxno, push_indices_self] at hx
      cases hx.2
    · rw [push_indices_other s no x hxno] at hx
      exact hx.2

theorem CfcExt_refl (g : Graph α) (c : List (List α)) : CfcExt g c c :=
  ⟨[], by simp, by simp⟩

theorem CfcExt_trans (g : Graph α) (a b c : List (List α))
    (h1 : CfcExt g a b) (h2 : CfcExt g b c) : CfcExt g a c := by
  obtain ⟨e1, he1, hs1⟩ := h1
  obtain ⟨e2, he2, hs2⟩ := h2
  refine ⟨e1 ++ e2, by rw [he2, he1, List.append_assoc], ?_⟩
  intro comp hc
  rcases List.mem_append.mp hc with h3 | h3
  · exact hs1 comp h3
  · exact hs2 comp h3

theorem TInv_init (g : Graph α) : TInv g ∅ (tarjanInit : TState α) := by
  refine ⟨?_, ?_, ?_, ?_, ?_, ?_, ?_, ?_, ?_, ?_, ?_⟩
  · exact List.nodup_nil
  · simp [tarjanInit]
  · intro x hx; simp [tarjanInit] at hx
  · intro x
    simp [tarjanInit, Discovered]
  · intro x i h; simp [tarjanInit] at h
  · intro x y i h; simp [tarjanInit] at h
  · simp [tarjanInit]
  · intro x l i h; simp [tarjanInit] at h
  · intro x hx; simp [tarjanInit] at hx
  · intro x hx; simp [tarjanInit] at hx
  · intro x hx; simp at hx

/-! ## Tarjan: invariant preservation lemmas -/

theorem TInv_push (g : Graph α) (gray : Finset α) (s : TState α) (no : α)
    (hinv : TInv g gray s) (hfresh : ¬ Discovered s no) :
    TInv g (insert no gray) (tarjanPush s no) := by
  have hnostack : no ∉ s.pilha := fun hc => hfresh (hinv.stackDisc no hc)
  have hidxeq : ∀ x, x ≠ no → getIdx (tarjanPush s no) x = getIdx s x := by
    intro x hx
    rw [getIdx, push_indices_other s no x hx]
    rfl
  have hloweq : ∀ x, x ≠ no → getLow (tarjanPush s no) x = getLow s x := by
    intro x hx
    rw [getLow, push_lowlinks_other s no x hx]
    rfl
  have hstackne : ∀ x ∈ s.pilha, x ≠ no := fun x hx hc => hnostack (hc ▸ hx)
  have hidxlt : ∀ x ∈ s.pilha, getIdx s x < s.index := by
    intro x hx
    obtain ⟨i, hi⟩ := hinv.stackDisc x hx
    rw [getIdx, hi]
    exact hinv.idxLt x i hi
  refine ⟨?_, ?_, ?_, ?_, ?_, ?_, ?_, ?_, ?_, ?_, ?_⟩
  · exact List.nodup_cons.mpr ⟨hnostack, hinv.nodupStack⟩
  · show insert no s.naPilha = (no :: s.pilha).toFinset
    rw [hinv.naPilhaEq]
    simp
  · intro x hx
    rcases List.mem_cons.mp hx with hxno | hxs
    · exact ⟨s.index, by rw [hxno, push_indices_self]⟩
    · rw [discovered_push]
      exact Or.inr (hinv.stackDisc x hxs)
  · intro x
    by_cases hx : x = no
    · rw [hx]
      constructor
      · intro _
        rw [push_lowlinks_self]
        rfl
      · intro _
        exact ⟨s.index, push_indices_self s no⟩
    · rw [discovered_push, push_lowlinks_other s no x hx]
      constructor
      · rintro (hc | hd)
        · exact absurd hc hx
        · exact (hinv.domEq x).mp hd
      · intro h
        exact Or.inr ((hinv.domEq x).mpr h)
  · intro x i h
    show i < s.index + 1
    by_cases hx : x = no
    · rw [hx, push_indices_self] at h
      cases h
      omega
    · rw [push_indices_other s no x hx] at h
      have := hinv.idxLt x i h
      omega
  · intro x y i hx hy
    by_cases hxno : x = no
    · by_cases hyno : y = no
      · rw [hxno, hyno]
      · exfalso
        rw [hxno, push_indices_self] at hx
        rw [push_indices_other s no y hyno] at hy
        have h1 := Option.some.inj hx
        have h2 := hinv.idxLt y i hy
        omega
    · by_cases hyno : y = no
      · exfalso
        rw [hyno, push_indices_self] at hy
        rw [push_indices_other s no x hxno] at hx
        have h1 := Option.some.inj hy
        have h2 := hinv.idxLt x i hx
        omega
      · rw [push_indices_other s no x hxno] at hx
        rw [push_indices_other s no y hyno] at hy
        exact hinv.idxInj x y i hx hy
  · show (no :: s.pilha).Pairwise fun a b =>
      getIdx (tarjanPush s no) b < getIdx (tarjanPush s no) a
    rw [List.pairwise_cons]
    constructor
    · intro b hb
      rw [hidxeq b (hstackne b hb)]
      rw [show getIdx (tarjanPush s no) no = s.index from by
        rw [getIdx, push_indices_self]; rfl]
      exact hidxlt b hb
    · refine List.Pairwise.imp_of_mem ?_ hinv.sorted
      intro a b ha hb hr
      rw [hidxeq a (hstackne a ha), hidxeq b (hstackne b hb)]
      exact hr
  · intro x l i hl hi
    by_cases hx : x = no
    · rw [hx, push_lowlinks_self] at hl
      rw [hx, push_indices_self] at hi
      cases hl
      cases hi
      exact Nat.le_refl _
    · rw [push_lowlinks_other s no x hx] at hl
      rw [push_indices_other s no x hx] at hi
      exact hinv.lowLe x l i hl hi
  · intro x hx hlt
    rcases List.mem_cons.mp hx with hxno | hxs
    · exfalso
      rw [hxno] at hlt
      rw [show getLow (tarjanPush s no) no = s.index from by
        rw [getLow, push_lowlinks_self]; rfl] at hlt
      rw [show getIdx (tarjanPush s no) no = s.index from by
        rw [getIdx, push_indices_self]; rfl] at hlt
      omega
    · have hxn := hstackne x hxs
      rw [hloweq x hxn, hidxeq x hxn] at hlt
      obtain ⟨w, hw1, hw2, hw3⟩ := hinv.lowReach x hxs hlt
      have hwstack : w ∈ s.pilha := by
        rw [hinv.naPilhaEq] at hw3
        exact List.mem_toFinset.mp hw3
      have hwn := hstackne w hwstack
      refine ⟨w, hw1, ?_, ?_⟩
      · rw [push_indices_other s no w hwn, hloweq x hxn]
        exact hw2
      · show w ∈ insert no s.naPilha
        exact Finset.mem_insert_of_mem hw3
  · intro x hx hgx
    rcases List.mem_cons.mp hx with hxno | hxs
    · exact absurd (hxno ▸ Finset.mem_insert_self no gray) hgx
    · have hxn := hstackne x hxs
      rw [hloweq x hxn, hidxeq x hxn]
      exact hinv.finLow x hxs (fun hc => hgx (Finset.mem_insert_of_mem hc))
  · intro x hx
    rcases Finset.mem_insert.mp hx with hxno | hxg
    · rw [hxno]
      exact List.mem_cons_self no s.pilha
    · exact List.mem_cons_of_mem no (hinv.grayStack x hxg)

theorem TInv_setLow (g : Graph α) (gray2 : Finset α) (s : TState α) (no : α) (nv : Nat)
    (hinv : TInv g gray2 s) (hgray : no ∈ gray2)
    (ln : Nat) (hln : s.lowlinks no = some ln) (hle : nv ≤ ln)
    (hjust : ∀ ino, s.indices no = some ino → nv < ino →
      ∃ w, Relation.TransGen (Edge g) no w ∧ s.indices w = some nv ∧ w ∈ s.naPilha) :
    TInv g gray2 (setLow s no nv) := by
  have hdn : Discovered s no := (hinv.domEq no).mpr (by rw [hln]; rfl)
  obtain ⟨ino, hino⟩ := hdn
  refine ⟨?_, ?_, ?_, ?_, ?_, ?_, ?_, ?_, ?_, ?_, ?_⟩
  · exact hinv.nodupStack
  · exact hinv.naPilhaEq
  · intro x hx
    exact hinv.stackDisc x hx
  · intro x
    rw [discovered_setLow]
    by_cases hx : x = no
    · rw [hx, setLow_lowlinks_self]
      constructor
      · intro _; rfl
      · intro _; exact ⟨ino, hino⟩
    · rw [setLow_lowlinks_other s no x nv hx]
      exact hinv.domEq x
  · exact hinv.idxLt
  · exact hinv.idxInj
  · exact hinv.sorted
  · intro x l i hl hi
    by_cases hx : x = no
    · rw [hx, setLow_lowlinks_self] at hl
      rw [hx, setLow_indices, hino] at hi
      have h1 := Option.some.inj hl
      have h2 := Option.some.inj hi
      have h3 := hinv.lowLe no ln ino hln hino
      omega
    · rw [setLow_lowlinks_other s no x _ hx] at hl
      exact hinv.lowLe x l i hl hi
  · intro x hx hlt
    rw [getIdx_setLow] at hlt
    by_cases hxno : x = no
    · rw [hxno, getLow_setLow_self] at hlt ⊢
      rw [hxno] at hx
      have hlt2 : nv < ino := by
        rw [show getIdx s no = ino from by rw [getIdx, hino]; rfl] at hlt
        exact hlt
      by_cases hcase : nv = ln
      · obtain ⟨w, hw1, hw2, hw3⟩ := hinv.lowReach no hx (by
          rw [show getLow s no = ln from by rw [getLow, hln]; rfl,
            show getIdx s no = ino from by rw [getIdx, hino]; rfl]
          omega)
        refine ⟨w, hw1, ?_, hw3⟩
        rw [show getLow s no = ln from by rw [getLow, hln]; rfl] at hw2
        rw [hcase]
        exact hw2
      · exact hjust ino hino hlt2
    · rw [getLow_setLow_other s no x nv hxno] at hlt ⊢
      obtain ⟨w, hw1, hw2, hw3⟩ := hinv.lowReach x hx hlt
      exact ⟨w, hw1, hw2, hw3⟩
  · intro x hx hgx
    have hxno : x ≠ no := fun hc => hgx (hc ▸ hgray)
    rw [getIdx_setLow, getLow_setLow_other s no x nv hxno]
    exact hinv.finLow x hx hgx
  · exact hinv.grayStack

/-! ## Tarjan: stack order and the descent to the root -/

theorem sorted_stack_old_lt (s2 : TState α)
    (hs : s2.pilha.Pairwise (fun a b => getIdx s2 b < getIdx s2 a))
    (NEWf : List α) (no : α) (old : List α)
    (hstack : s2.pilha = NEWf ++ no :: old) :
    ∀ b ∈ old, getIdx s2 b < getIdx s2 no := by
  rw [hstack] at hs
  have h2 := (List.pairwise_append.mp hs).2.1
  exact (List.pairwise_cons.mp h2).1

theorem sorted_stack_new_gt (s2 : TState α)
    (hs : s2.pilha.Pairwise (fun a b => getIdx s2 b < getIdx s2 a))
    (NEWf : List α) (no : α) (old : List α)
    (hstack : s2.pilha = NEWf ++ no :: old) :
    ∀ a ∈ NEWf, getIdx s2 no < getIdx s2 a := by
  rw [hstack] at hs
  have h2 := (List.pairwise_append.mp hs).2.2
  intro a ha
  exact h2 a ha no (List.mem_cons_self no old)

theorem stack_reach_root (g : Graph α) (gray2 : Finset α) (s2 : TState α)
    (hinv : TInv g gray2 s2) (NEWf : List α) (no : α) (old : List α)
    (hstack : s2.pilha = NEWf ++ no :: old)
    (hfin : ∀ u ∈ NEWf, getLow s2 u < getIdx s2 u)
    (hpll : ∀ u ∈ NEWf, getIdx s2 no ≤ getLow s2 u) :
    ∀ u ∈ NEWf, Relation.TransGen (Edge g) u no := by
  have main : ∀ n, ∀ u ∈ NEWf, getIdx s2 u = n → Relation.TransGen (Edge g) u no := by
    intro n
    induction n using Nat.strong_induction_on with
    | _ n ih =>
      intro u hu hidx
      have hus : u ∈ s2.pilha := by
        rw [hstack]
        exact List.mem_append.mpr (Or.inl hu)
      obtain ⟨w, hw1, hw2, hw3⟩ := hinv.lowReach u hus (hfin u hu)
      have hwidx : getIdx s2 w = getLow s2 u := by
        rw [getIdx, hw2]
        rfl
      have hge : getIdx s2 no ≤ getIdx s2 w := by
        rw [hwidx]
        exact hpll u hu
      have hwstack : w ∈ s2.pilha := by
        rw [hinv.naPilhaEq] at hw3
        exact List.mem_toFinset.mp hw3
      rw [hstack] at hwstack
      rcases List.mem_append.mp hwstack with hwn | hwno
      · have hlt : getIdx s2 w < n := by
          rw [hwidx, ← hidx]
          exact hfin u hu
        exact Relation.TransGen.trans hw1 (ih (getIdx s2 w) hlt w hwn rfl)
      · rcases List.mem_cons.mp hwno with hweq | hwold
        · rw [hweq] at hw1
          exact hw1
        · exfalso
          have := sorted_stack_old_lt s2 hinv.sorted NEWf no old hstack w hwold
          omega
  intro u hu
  exact main (getIdx s2 u) u hu rfl

/-! ## Tarjan: the neighbour loop -/

theorem lowlinks_of_discovered (g : Graph α) (gray2 : Finset α) (s : TState α)
    (hinv : TInv g gray2 s) (x : α) (hd : Discovered s x) :
    ∃ l, s.lowlinks x = some l := by
  have h := (hinv.domEq x).mp hd
  cases hl : s.lowlinks x with
  | none => rw [hl] at h; cases h
  | some l => exact ⟨l, rfl⟩

theorem tarjanFold_run (g : Graph α) (fuel : Nat) (gray2 : Finset α) (no : α)
    (hstep : ∀ v s, TInv g gray2 s → ¬ Discovered s v → v ∈ univFinset g →
      undiscCard g s < fuel →
      ∃ s3 NEW, tarjanDfs g fuel v s = some s3 ∧ DfsPost g gray2 v s NEW s3) :
    ∀ l s1, TInv g gray2 s1 → no ∈ gray2 → Discovered s1 no →
      (∀ v ∈ l, Edge g no v) → undiscCard g s1 < fuel →
      ∃ s2 NEWf, tarjanFold (fun v t => tarjanDfs g fuel v t) no l s1 = some s2 ∧
        FoldPost g gray2 no s1 NEWf s2 := by
  intro l
  induction l with
  | nil =>
    intro s1 hinv hgray hdisc _ _
    obtain ⟨ln, hln⟩ := lowlinks_of_discovered g gray2 s1 hinv no hdisc
    refine ⟨s1, [], rfl, ?_⟩
    exact {
      stackEq := by simp
      newFresh := by simp
      pll := by simp
      lowNo := ⟨ln, ln, hln, hln, Nat.le_refl ln⟩
      idxMono := fun x i h => h
      newReach := fun x h => Or.inl h
      newIdxGe := fun x h i hi => absurd ⟨i, hi⟩ h
      idxGe := Nat.le_refl _
      lowOld := fun x _ _ => rfl
      cfcSound := CfcExt_refl g s1.cfc
      inv := hinv
      fewerEq := Nat.le_refl _ }
  | cons v rest ih =>
    intro s1 hinv hgray hdisc hl hcard
    obtain ⟨ln, hln⟩ := lowlinks_of_discovered g gray2 s1 hinv no hdisc
    obtain ⟨ino, hino⟩ := hdisc
    have hlnino : ln ≤ ino := hinv.lowLe no ln ino hln hino
    have hinolt : ino < s1.index := hinv.idxLt no ino hino
    have hedge : Edge g no v := hl v (List.mem_cons_self v rest)
    have hlrest : ∀ w ∈ rest, Edge g no w := fun w hw => hl w (List.mem_cons_of_mem v hw)
    have hnostack : no ∈ s1.pilha := hinv.grayStack no hgray
    by_cases hdv : (s1.indices v).isSome = true
    · obtain ⟨iv, hiv⟩ := (discovered_iff_isSome s1 v).mpr hdv
      by_cases hsv : v ∈ s1.naPilha
      · -- back edge: lowlinks[no] := min(lowlinks[no], indices[v])
        have hjust : ∀ ino2, s1.indices no = some ino2 → min ln iv < ino2 →
            ∃ w, Relation.TransGen (Edge g) no w ∧
              s1.indices w = some (min ln iv) ∧ w ∈ s1.naPilha := by
          intro ino2 hino2 hlt
          have hino2e : ino2 = ino := Option.some.inj (hino2.symm.trans hino)
          subst hino2e
          rcases Nat.lt_or_ge iv ln with hcase | hcase
          · refine ⟨v, Relation.TransGen.single hedge, ?_, hsv⟩
            rw [Nat.min_eq_right (Nat.le_of_lt hcase)]
            exact hiv
          · rw [Nat.min_eq_left hcase] at hlt ⊢
            obtain ⟨w, hw1, hw2, hw3⟩ := hinv.lowReach no hnostack (by
              rw [show getLow s1 no = ln from by rw [getLow, hln]; rfl,
                show getIdx s1 no = ino2 from by rw [getIdx, hino2]; rfl]
              exact hlt)
            refine ⟨w, hw1, ?_, hw3⟩
            rw [show getLow s1 no = ln from by rw [getLow, hln]; rfl] at hw2
            exact hw2
        have hinv1 : TInv g gray2 (setLow s1 no (min ln iv)) :=
          TInv_setLow g gray2 s1 no (min ln iv) hinv hgray ln hln
            (Nat.min_le_left _ _) hjust
        obtain ⟨s2, NEWf, heq2, post2⟩ :=
          ih (setLow s1 no (min ln iv)) hinv1 hgray
            ⟨ino, by rw [setLow_indices]; exact hino⟩ hlrest
            (by rw [undiscCard_setLow]; exact hcard)
        refine ⟨s2, NEWf, ?_, ?_⟩
        · rw [tarjanFold, if_pos hdv, if_pos hsv, hln, hiv]
          exact heq2
        · obtain ⟨ln1b, ln2b, hln1b, hln2b, hleb⟩ := post2.lowNo
          rw [setLow_lowlinks_self] at hln1b
          have hln1be := Option.some.inj hln1b
          refine {
            stackEq := by rw [post2.stackEq, setLow_pilha]
            newFresh := post2.newFresh
            pll := post2.pll
            lowNo := ⟨ln, ln2b, hln, hln2b, by omega⟩
            idxMono := fun x i h => post2.idxMono x i (by rw [setLow_indices]; exact h)
            newReach := post2.newReach
            newIdxGe := fun x h i hi => by
              have := post2.newIdxGe x h i hi
              rw [setLow_index] at this
              exact this
            idxGe := by
              have := post2.idxGe
              rw [setLow_index] at this
              exact this
            lowOld := fun x hx hxno => by
              rw [post2.lowOld x hx hxno, setLow_lowlinks_other s1 no x _ hxno]
            cfcSound := by
              have := post2.cfcSound
              rw [setLow_cfc] at this
              exact this
            inv := post2.inv
            fewerEq := by
              have := post2.fewerEq
              rw [undiscCard_setLow] at this
              exact this }
      · -- discovered but not on the stack: skip
        obtain ⟨s2, NEWf, heq2, post2⟩ := ih s1 hinv hgray ⟨ino, hino⟩ hlrest hcard
        refine ⟨s2, NEWf, ?_, post2⟩
        rw [tarjanFold, if_pos hdv, if_neg hsv]
        exact heq2
    · -- undiscovered neighbour: recurse
      have hfresh : ¬ Discovered s1 v := fun hc => hdv ((discovered_iff_isSome s1 v).mp hc)
      have hvu : v ∈ univFinset g := lookupList_mem_univ g no v hedge
      obtain ⟨s3, NEW, heq3, post3⟩ := hstep v s1 hinv hfresh hvu hcard
      have hmono13 : ∀ x, Discovered s1 x → Discovered s3 x := by
        rintro x ⟨i, hi⟩
        exact ⟨i, post3.idxMono x i hi⟩
      have hlow_no3 : s3.lowlinks no = some ln := by
        rw [post3.lowOld no ⟨ino, hino⟩]
        exact hln
      obtain ⟨lv, hlv, hlvdisj⟩ := post3.lowNo
      have hino3 : s3.indices no = some ino := post3.idxMono no ino hino
      have hnostack3 : no ∈ s3.pilha := by
        rw [post3.stackEq]
        exact List.mem_append.mpr (Or.inr hnostack)
      have hjust : ∀ ino2, s3.indices no = some ino2 → min ln lv < ino2 →
          ∃ w, Relation.TransGen (Edge g) no w ∧
            s3.indices w = some (min ln lv) ∧ w ∈ s3.naPilha := by
        intro ino2 hino2 hlt
        have hino2e : ino2 = ino := Option.some.inj (hino2.symm.trans hino3)
        subst hino2e
        rcases Nat.le_total ln lv with hcase | hcase
        · rw [Nat.min_eq_left hcase] at hlt ⊢
          obtain ⟨w, hw1, hw2, hw3⟩ := post3.inv.lowReach no hnostack3 (by
            rw [show getLow s3 no = ln from by rw [getLow, hlow_no3]; rfl,
              show getIdx s3 no = ino2 from by rw [getIdx, hino2]; rfl]
            exact hlt)
          refine ⟨w, hw1, ?_, hw3⟩
          rw [show getLow s3 no = ln from by rw [getLow, hlow_no3]; rfl] at hw2
          exact hw2
        · rw [Nat.min_eq_right hcase] at hlt ⊢
          rcases hlvdisj with hvNEW | hvge
          · have hvstack : v ∈ s3.pilha := by
              rw [post3.stackEq]
              exact List.mem_append.mpr (Or.inl hvNEW)
            obtain ⟨ivv, hivv⟩ := post3.inv.stackDisc v hvstack
            have hlvivv : lv ≤ ivv := post3.inv.lowLe v lv ivv hlv hivv
            rcases Nat.lt_or_ge lv ivv with hcase2 | hcase2
            · obtain ⟨w, hw1, hw2, hw3⟩ := post3.inv.lowReach v hvstack (by
                rw [show getLow s3 v = lv from by rw [getLow, hlv]; rfl,
                  show getIdx s3 v = ivv from by rw [getIdx, hivv]; rfl]
                exact hcase2)
              refine ⟨w, Relation.TransGen.head hedge hw1, ?_, hw3⟩
              rw [show getLow s3 v = lv from by rw [getLow, hlv]; rfl] at hw2
              exact hw2
            · have hlveq : lv = ivv := by omega
              refine ⟨v, Relation.TransGen.single hedge, ?_, ?_⟩
              · rw [hivv, hlveq]
              · rw [post3.inv.naPilhaEq]
                exact List.mem_toFinset.mpr hvstack
          · exfalso
            omega
      have hinv3 : TInv g gray2 (setLow s3 no (min ln lv)) :=
        TInv_setLow g gray2 s3 no (min ln lv) post3.inv hgray ln hlow_no3
          (Nat.min_le_left _ _) hjust
      obtain ⟨s2, NEWf2, heq4, post4⟩ :=
        ih (setLow s3 no (min ln lv)) hinv3 hgray
          ⟨ino, by rw [setLow_indices]; exact hino3⟩ hlrest
          (by rw [undiscCard_setLow]; exact Nat.lt_trans post3.fewer hcard)
      refine ⟨s2, NEWf2 ++ NEW, ?_, ?_⟩
      · rw [tarjanFold, if_neg hdv, heq3]
        show (match s3.lowlinks no, s3.lowlinks v with
          | some ln0, some lv0 =>
              tarjanFold (fun v t => tarjanDfs g fuel v t) no rest
                (setLow s3 no (min ln0 lv0))
          | _, _ => none) = some s2
        rw [hlow_no3, hlv]
        exact heq4
      · obtain ⟨ln1b, ln2b, hln1b, hln2b, hleb⟩ := post4.lowNo
        rw [setLow_lowlinks_self] at hln1b
        have hln1be := Option.some.inj hln1b
        have hfresh31 : ∀ x, ¬ Discovered s3 x → ¬ Discovered s1 x :=
          fun x h hc => h (hmono13 x hc)
        refine {
          stackEq := ?_
          newFresh := ?_
          pll := ?_
          lowNo := ⟨ln, ln2b, hln, hln2b, by omega⟩
          idxMono := ?_
          newReach := ?_
          newIdxGe := ?_
          idxGe := ?_
          lowOld := ?_
          cfcSound := ?_
          inv := post4.inv
          fewerEq := ?_ }
        · rw [post4.stackEq, setLow_pilha, post3.stackEq, List.append_assoc]
        · intro x hx
          rcases List.mem_append.mp hx with h2 | h2
          · exact hfresh31 x (post4.newFresh x h2)
          · exact post3.newFresh x h2
        · intro x hx
          rcases List.mem_append.mp hx with h2 | h2
          · exact post4.pll x h2
          · -- x kept on the stack by the child call
            obtain ⟨lx, lv2, hlx, hlv2, hle2⟩ := post3.pll x h2
            have hlv2e : lv2 = lv := Option.some.inj (hlv2.symm.trans hlv)
            have hxno : x ≠ no := by
              intro hc
              exact (post3.newFresh x h2) (hc ▸ ⟨ino, hino⟩)
            have hxdisc3 : Discovered s3 x := by
              apply post3.inv.stackDisc x
              rw [post3.stackEq]
              exact List.mem_append.mpr (Or.inl h2)
            have hs2x : s2.lowlinks x = some lx := by
              rw [post4.lowOld x hxdisc3 hxno, setLow_lowlinks_other s3 no x _ hxno]
              exact hlx
            refine ⟨lx, ln2b, hs2x, hln2b, ?_⟩
            have hm : min ln lv ≤ lv := Nat.min_le_right _ _
            omega
        · intro x i h
          exact post4.idxMono x i (by rw [setLow_indices]; exact post3.idxMono x i h)
        · intro x hx
          rcases post4.newReach x hx with h2 | h2
          · rcases post3.newReach x h2 with h3 | h3
            · exact Or.inl h3
            · exact Or.inr (Relation.TransGen.head' hedge h3)
          · exact Or.inr h2
        · intro x hx i hi
          by_cases hx3 : Discovered s3 x
          · obtain ⟨i0, hi0⟩ := hx3
            have hi0b : s2.indices x = some i0 :=
              post4.idxMono x i0 (by rw [setLow_indices]; exact hi0)
            have hie : i = i0 := Option.some.inj (hi.symm.trans hi0b)
            rw [hie]
            exact post3.newIdxGe x hx i0 hi0
          · have h2 := post4.newIdxGe x hx3 i hi
            rw [setLow_index] at h2
            have h3 := post3.idxGt
            omega
        · have h2 := post4.idxGe
          rw [setLow_index] at h2
          have h3 := post3.idxGt
          omega
        · intro x hx hxno
          rw [post4.lowOld x (hmono13 x hx) hxno,
            setLow_lowlinks_other s3 no x _ hxno, post3.lowOld x hx]
        · refine CfcExt_trans g s1.cfc s3.cfc s2.cfc post3.cfcSound ?_
          have h2 := post4.cfcSound
          rw [setLow_cfc] at h2
          exact h2
        · have h2 := post4.fewerEq
          rw [undiscCard_setLow] at h2
          have h3 := post3.fewer
          omega

/-! ## Tarjan: the dfs -/

theorem tarjanDfs_run (g : Graph α) : ∀ fuel no s gray,
    TInv g gray s → ¬ Discovered s no → no ∈ univFinset g → undiscCard g s < fuel →
    ∃ s3 NEW, tarjanDfs g fuel no s = some s3 ∧ DfsPost g gray no s NEW s3 := by
  intro fuel
  induction fuel with
  | zero => intro no s gray _ _ _ h; omega
  | succ fuel ih =>
    intro no s gray hinv hfresh hnou hcard
    have hinv1 : TInv g (insert no gray) (tarjanPush s no) := TInv_push g gray s no hinv hfresh
    have hdisc1 : Discovered (tarjanPush s no) no := ⟨s.index, push_indices_self s no⟩
    have hcard1 : undiscCard g (tarjanPush s no) < fuel := by
      have h2 := undiscCard_push_lt g s no hfresh hnou
      omega
    obtain ⟨s2, NEWf, heqf, postf⟩ :=
      tarjanFold_run g fuel (insert no gray) no
        (fun v st h1 h2 h3 h4 => ih v st (insert no gray) h1 h2 h3 h4)
        (lookupList g no) (tarjanPush s no) hinv1 (Finset.mem_insert_self no gray)
        hdisc1 (fun v hv => hv) hcard1
    have hidxno2 : s2.indices no = some s.index :=
      postf.idxMono no s.index (push_indices_self s no)
    obtain ⟨ln1, ln2, hln1, hln2, hle2⟩ := postf.lowNo
    have hln1e : ln1 = s.index :=
      Option.some.inj (hln1.symm.trans (push_lowlinks_self s no))
    have hstack2 : s2.pilha = NEWf ++ no :: s.pilha := postf.stackEq
    have hnoNEWf : no ∉ NEWf := fun hc => postf.newFresh no hc hdisc1
    have hnos : no ∉ s.pilha := fun hc => hfresh (hinv.stackDisc no hc)
    have hmono01 : ∀ x, Discovered s x → Discovered (tarjanPush s no) x := by
      intro x hx
      rw [discovered_push]
      exact Or.inr hx
    have hNEWfFresh : ∀ x ∈ NEWf, ¬ Discovered s x := by
      intro x hx hc
      exact postf.newFresh x hx (hmono01 x hc)
    have hsNEWf : ∀ x ∈ s.pilha, x ∉ NEWf := by
      intro x hx hc
      exact hNEWfFresh x hc (hinv.stackDisc x hx)
    have hidxMono : ∀ x i, s.indices x = some i → s2.indices x = some i := by
      intro x i h
      have hxno : x ≠ no := fun hc => hfresh ⟨i, hc ▸ h⟩
      exact postf.idxMono x i (by rw [push_indices_other s no x hxno]; exact h)
    have hnewReach : ∀ x, Discovered s2 x →
        Discovered s x ∨ Relation.ReflTransGen (Edge g) no x := by
      intro x hx
      rcases postf.newReach x hx with h2 | h2
      · rcases (discovered_push s no x).mp h2 with h3 | h3
        · rw [h3]
          exact Or.inr Relation.ReflTransGen.refl
        · exact Or.inl h3
      · exact Or.inr h2.to_reflTransGen
    have hnewIdxGe : ∀ x, ¬ Discovered s x → ∀ i, s2.indices x = some i → s.index ≤ i := by
      intro x hx i hi
      by_cases hxno : x = no
      · rw [hxno] at hi
        have := Option.some.inj (hi.symm.trans hidxno2)
        omega
      · have hx1 : ¬ Discovered (tarjanPush s no) x := by
          rw [discovered_push]
          rintro (h2 | h2)
          · exact hxno h2
          · exact hx h2
        have h2 := postf.newIdxGe x hx1 i hi
        have h3 : (tarjanPush s no).index = s.index + 1 := rfl
        omega
    have hlowOld : ∀ x, Discovered s x → s2.lowlinks x = s.lowlinks x := by
      intro x hx
      have hxno : x ≠ no := fun hc => hfresh (hc ▸ hx)
      rw [postf.lowOld x (hmono01 x hx) hxno, push_lowlinks_other s no x hxno]
    have hidxGt : s.index < s2.index := by
      have h2 := postf.idxGe
      have h3 : (tarjanPush s no).index = s.index + 1 := rfl
      omega
    have hfewer : undiscCard g s2 < undiscCard g s := by
      have h2 := postf.fewerEq
      have h3 := undiscCard_push_lt g s no hfresh hnou
      omega
    have hcfc1 : CfcExt g s.cfc s2.cfc := postf.cfcSound
    by_cases hroot : ln2 = s.index
    · -- the node roots a component: pop it
      have hpop : popUntilO s2.pilha no = some (NEWf ++ [no], s.pilha) := by
        rw [hstack2]
        exact popUntilO_append NEWf no s.pilha hnoNEWf
      refine ⟨tarjanPop s2 (NEWf ++ [no]) s.pilha, [], ?_, ?_⟩
      · rw [tarjanDfs, heqf]
        show (match s2.lowlinks no, s2.indices no with
          | some ln0, some inn0 =>
            if ln0 = inn0 then
              match popUntilO s2.pilha no with
              | none => none
              | some (comp, rest) => some (tarjanPop s2 comp rest)
            else some s2
          | _, _ => none) = some (tarjanPop s2 (NEWf ++ [no]) s.pilha)
        rw [hln2, hidxno2]
        show (if ln2 = s.index then
            match popUntilO s2.pilha no with
            | none => none
            | some (comp, rest) => some (tarjanPop s2 comp rest)
          else some s2) = some (tarjanPop s2 (NEWf ++ [no]) s.pilha)
        rw [if_pos hroot, hpop]
      · -- facts used for the component and the restored invariant
        have hgetIdxNo : getIdx s2 no = s.index := by
          rw [getIdx, hidxno2]
          rfl
        have hfinNEWf : ∀ u ∈ NEWf, getLow s2 u < getIdx s2 u := by
          intro u hu
          apply postf.inv.finLow u (by rw [hstack2]; exact List.mem_append.mpr (Or.inl hu))
          intro hc
          rcases Finset.mem_insert.mp hc with h2 | h2
          · exact hnoNEWf (h2 ▸ hu)
          · exact hNEWfFresh u hu (hinv.stackDisc u (hinv.grayStack u h2))
        have hpllNEWf : ∀ u ∈ NEWf, getIdx s2 no ≤ getLow s2 u := by
          intro u hu
          obtain ⟨lx, lnx, hlx, hlnx, hlex⟩ := postf.pll u hu
          have hlnxe : lnx = ln2 := Option.some.inj (hlnx.symm.trans hln2)
          rw [hgetIdxNo, getLow, hlx]
          show s.index ≤ lx
          omega
        have hreachroot := stack_reach_root g (insert no gray) s2 postf.inv NEWf no
          s.pilha hstack2 hfinNEWf hpllNEWf
        have hno_to : ∀ u ∈ NEWf ++ [no], Relation.ReflTransGen (Edge g) no u := by
          intro u hu
          rcases List.mem_append.mp hu with h2 | h2
          · have hds2 : Discovered s2 u := postf.inv.stackDisc u (by
              rw [hstack2]; exact List.mem_append.mpr (Or.inl h2))
            rcases postf.newReach u hds2 with h3 | h3
            · exact absurd h3 (postf.newFresh u h2)
            · exact h3.to_reflTransGen
          · rw [List.mem_singleton.mp h2]
        have hto_no : ∀ u ∈ NEWf ++ [no], Relation.ReflTransGen (Edge g) u no := by
          intro u hu
          rcases List.mem_append.mp hu with h2 | h2
          · exact (hreachroot u h2).to_reflTransGen
          · rw [List.mem_singleton.mp h2]
        have hcfc2 : CfcExt g s2.cfc (tarjanPop s2 (NEWf ++ [no]) s.pilha).cfc := by
          by_cases hlen : 1 < (NEWf ++ [no]).length
          · refine ⟨[NEWf ++ [no]], ?_, ?_⟩
            · show (if 1 < (NEWf ++ [no]).length then s2.cfc ++ [NEWf ++ [no]]
                else s2.cfc) = s2.cfc ++ [NEWf ++ [no]]
              rw [if_pos hlen]
            · intro comp hcomp
              rw [List.mem_singleton.mp hcomp]
              refine ⟨hlen, ?_⟩
              intro u hu v hv
              exact Relation.ReflTransGen.trans (hto_no u hu) (hno_to v hv)
          · refine ⟨[], ?_, by simp⟩
            show (if 1 < (NEWf ++ [no]).length then s2.cfc ++ [NEWf ++ [no]]
              else s2.cfc) = s2.cfc ++ []
            rw [if_neg hlen, List.append_nil]
        have hidxOldLt : ∀ x ∈ s.pilha, getIdx s2 x < s.index := by
          intro x hx
          have := sorted_stack_old_lt s2 postf.inv.sorted NEWf no s.pilha hstack2 x hx
          omega
        have hnotComp : ∀ w, s2.indices w = some (getLow s2 w) → True := fun _ _ => trivial
        refine {
          stackEq := by rw [tarjanPop_pilha]; rfl
          newFresh := by simp
          pll := by simp
          lowNo := ⟨ln2, by rw [show (tarjanPop s2 (NEWf ++ [no]) s.pilha).lowlinks =
              s2.lowlinks from rfl]; exact hln2, Or.inr (by omega)⟩
          idxMono := fun x i h => hidxMono x i h
          newReach := fun x hx => hnewReach x hx
          newIdxGe := fun x hx i hi => hnewIdxGe x hx i hi
          discNo := hidxno2
          idxGt := hidxGt
          lowOld := fun x hx => hlowOld x hx
          cfcSound := CfcExt_trans g _ _ _ hcfc1 hcfc2
          inv := ?_
          fewer := by rw [undiscCard_pop]; exact hfewer }
        -- the invariant after the pop
        refine ⟨?_, ?_, ?_, ?_, ?_, ?_, ?_, ?_, ?_, ?_, ?_⟩
        · exact hinv.nodupStack
        · show s2.naPilha \ (NEWf ++ [no]).toFinset = s.pilha.toFinset
          rw [postf.inv.naPilhaEq, hstack2]
          ext x
          simp only [Finset.mem_sdiff, List.mem_toFinset, List.mem_append,
            List.mem_cons, List.mem_singleton, List.not_mem_nil, or_false]
          constructor
          · rintro ⟨h1 | h1 | h1, h2⟩
            · exact absurd (Or.inl h1) h2
            · exact absurd (Or.inr h1) h2
            · exact h1
          · intro hx
            refine ⟨Or.inr (Or.inr hx), ?_⟩
            rintro (h2 | h2)
            · exact hsNEWf x hx h2
            · exact hnos (h2 ▸ hx)
        · intro x hx
          exact postf.inv.stackDisc x (by
            rw [hstack2]
            exact List.mem_append.mpr (Or.inr (List.mem_cons_of_mem no hx)))
        · exact postf.inv.domEq
        · exact postf.inv.idxLt
        · exact postf.inv.idxInj
        · show s.pilha.Pairwise _
          have h2 := postf.inv.sorted
          rw [hstack2] at h2
          exact List.pairwise_cons.mp (List.pairwise_append.mp h2).2.1 |>.2
        · exact postf.inv.lowLe
        · intro x hx hlt
          have hxs2 : x ∈ s2.pilha := by
            rw [hstack2]
            exact List.mem_append.mpr (Or.inr (List.mem_cons_of_mem no hx))
          obtain ⟨w, hw1, hw2, hw3⟩ := postf.inv.lowReach x hxs2 hlt
          refine ⟨w, hw1, hw2, ?_⟩
          show w ∈ s2.naPilha \ (NEWf ++ [no]).toFinset
          rw [Finset.mem_sdiff]
          refine ⟨hw3, ?_⟩
          have hlowlt : getLow s2 x < s.index := by
            have h2 := hidxOldLt x hx
            have h3 : getLow s2 x ≤ getIdx s2 x := by
              obtain ⟨ix, hix⟩ := postf.inv.stackDisc x hxs2
              obtain ⟨lx, hlx⟩ := lowlinks_of_discovered g _ s2 postf.inv x ⟨ix, hix⟩
              rw [getLow, hlx, getIdx, hix]
              exact postf.inv.lowLe x lx ix hlx hix
            omega
          rw [List.mem_toFinset, List.mem_append, List.mem_singleton]
          rintro (hc | hc)
          · have h2 := postf.newIdxGe w (postf.newFresh w hc) (getLow s2 x) hw2
            have h3 : (tarjanPush s no).index = s.index + 1 := rfl
            omega
          · rw [hc] at hw2
            have := Option.some.inj (hw2.symm.trans hidxno2)
            omega
        · intro x hx hgx
          have hxs2 : x ∈ s2.pilha := by
            rw [hstack2]
            exact List.mem_append.mpr (Or.inr (List.mem_cons_of_mem no hx))
          apply postf.inv.finLow x hxs2
          intro hc
          rcases Finset.mem_insert.mp hc with h2 | h2
          · exact hnos (h2 ▸ hx)
          · exact hgx h2
        · intro x hx
          exact hinv.grayStack x hx
    · -- the node stays on the stack
      refine ⟨s2, NEWf ++ [no], ?_, ?_⟩
      · rw [tarjanDfs, heqf]
        show (match s2.lowlinks no, s2.indices no with
          | some ln0, some inn0 =>
            if ln0 = inn0 then
              match popUntilO s2.pilha no with
              | none => none
              | some (comp, rest) => some (tarjanPop s2 comp rest)
            else some s2
          | _, _ => none) = some s2
        rw [hln2, hidxno2]
        show (if ln2 = s.index then
            match popUntilO s2.pilha no with
            | none => none
            | some (comp, rest) => some (tarjanPop s2 comp rest)
          else some s2) = some s2
        rw [if_neg hroot]
      · refine {
          stackEq := by rw [hstack2]; simp
          newFresh := ?_
          pll := ?_
          lowNo := ⟨ln2, hln2, Or.inl (by simp)⟩
          idxMono := fun x i h => hidxMono x i h
          newReach := fun x hx => hnewReach x hx
          newIdxGe := fun x hx i hi => hnewIdxGe x hx i hi
          discNo := hidxno2
          idxGt := hidxGt
          lowOld := fun x hx => hlowOld x hx
          cfcSound := hcfc1
          inv := ?_
          fewer := hfewer }
        · intro x hx
          rcases List.mem_append.mp hx with h2 | h2
          · exact hNEWfFresh x h2
          · rw [List.mem_singleton.mp h2]
            exact hfresh
        · intro x hx
          rcases List.mem_append.mp hx with h2 | h2
          · exact postf.pll x h2
          · rw [List.mem_singleton.mp h2]
            exact ⟨ln2, ln2, hln2, hln2, Nat.le_refl ln2⟩
        · -- the invariant with no now black on the stack
          refine ⟨postf.inv.nodupStack, postf.inv.naPilhaEq, postf.inv.stackDisc,
            postf.inv.domEq, postf.inv.idxLt, postf.inv.idxInj, postf.inv.sorted,
            postf.inv.lowLe, postf.inv.lowReach, ?_, ?_⟩
          · intro x hx hgx
            by_cases hxno : x = no
            · rw [hxno, getLow, hln2, getIdx, hidxno2]
              show ln2 < s.index
              omega
            · apply postf.inv.finLow x hx
              intro hc
              rcases Finset.mem_insert.mp hc with h2 | h2
              · exact hxno h2
              · exact hgx h2
          · intro x hx
            exact postf.inv.grayStack x (Finset.mem_insert_of_mem hx)

/-! ## Tarjan: the outer loop, claim C2, and claim C10 -/

theorem tarjanOuter_run (g : Graph α) (fuel : Nat) :
    ∀ l s, TInv g ∅ s → (∀ v ∈ l, v ∈ univFinset g) → undiscCard g s < fuel →
      ∃ s2, tarjanOuter g fuel l s = some s2 ∧ CfcExt g s.cfc s2.cfc ∧ TInv g ∅ s2 := by
  intro l
  induction l with
  | nil => intro s hinv _ _; exact ⟨s, rfl, CfcExt_refl g s.cfc, hinv⟩
  | cons no rest ih =>
    intro s hinv hl hcard
    by_cases hd : (s.indices no).isSome = true
    · rw [tarjanOuter, if_pos hd]
      exact ih s hinv (fun w hw => hl w (List.mem_cons_of_mem no hw)) hcard
    · have hfresh : ¬ Discovered s no := fun hc => hd ((discovered_iff_isSome s no).mp hc)
      obtain ⟨s3, NEW, heq3, post3⟩ :=
        tarjanDfs_run g fuel no s ∅ hinv hfresh (hl no (List.mem_cons_self no rest)) hcard
      obtain ⟨s2, heq2, hcfc2, hinv2⟩ :=
        ih s3 post3.inv (fun w hw => hl w (List.mem_cons_of_mem no hw))
          (Nat.lt_trans post3.fewer hcard)
      refine ⟨s2, ?_, CfcExt_trans g _ _ _ post3.cfcSound hcfc2, hinv2⟩
      rw [tarjanOuter, if_neg hd, heq3]
      exact heq2

theorem undiscCard_init_lt (g : Graph α) : undiscCard g (tarjanInit : TState α) < bound g := by
  have h : undiscCard g (tarjanInit : TState α) ≤ (univFinset g).card :=
    Finset.card_filter_le _ _
  show undiscCard g (tarjanInit : TState α) < (univFinset g).card + 1
  omega

/-- C2: every component returned by findSCCs has at least two members, and
any two nodes of one component are mutually reachable by directed paths; in
particular a node carrying only a self-loop is never emitted. -/
theorem C2_cfc_components (g : Graph α) :
    ∀ comp ∈ encontrar_cfc g, 2 ≤ comp.length ∧
      ∀ u ∈ comp, ∀ v ∈ comp, Relation.ReflTransGen (Edge g) u v := by
  intro comp hc
  rw [encontrar_cfc] at hc
  cases houter : tarjanOuter g (bound g) (keys g) tarjanInit with
  | none =>
    rw [houter] at hc
    have hc2 : comp ∈ ([] : List (List α)) := hc
    simp at hc2
  | some st =>
    rw [houter] at hc
    have hc2 : comp ∈ st.cfc := hc
    obtain ⟨s2, heq2, hcfc, -⟩ :=
      tarjanOuter_run g (bound g) (keys g) tarjanInit (TInv_init g)
        (fun v hv => key_mem_univ g v hv) (undiscCard_init_lt g)
    rw [houter] at heq2
    have hse : st = s2 := Option.some.inj heq2
    obtain ⟨emit, hemit, hsound⟩ := hcfc
    have hemit2 : st.cfc = emit := by
      rw [hse, hemit]
      rfl
    apply hsound comp
    rw [← hemit2]
    exact hc2

/-- Witness for C2: the 3-cycle's single emitted component. -/
theorem C2_cfc_components_witness :
    (["C", "B", "A"] ∈ encontrar_cfc gCycle3) ∧
      (2 ≤ (["C", "B", "A"] : List String).length ∧
        ∀ u ∈ (["C", "B", "A"] : List String), ∀ v ∈ (["C", "B", "A"] : List String),
          Relation.ReflTransGen (Edge gCycle3) u v) :=
  ⟨by decide, C2_cfc_components gCycle3 ["C", "B", "A"] (by decide)⟩

/-- C10: on every adjacency mapping, even one violating the section-3
invariant, each traversal-based analysis completes: every neighbour-list
access goes through a defaulted lookup, so a missing node is treated as
having no outgoing edges and no lookup error occurs (the in-degree analysis
is a structurally total fold and needs no such statement). -/
theorem C10_no_lookup_errors (g : Graph α) (n : α) :
    (∃ b, cicloOuter g (bound g) (keys g) ∅ = some b) ∧
    (∃ s, tarjanOuter g (bound g) (keys g) tarjanInit = some s) ∧
    (∃ t, ordemOuter g (bound g) (keys g) (∅, []) = some t) ∧
    (∃ u, reachDfs g (bound g) n ∅ = some u) ∧
    (∃ w, reachDfs (invGraph g) (bound (invGraph g)) n ∅ = some w) := by
  refine ⟨?_, ?_, ?_, ?_, ?_⟩
  · exact cicloOuter_some g (bound g) (keys g) ∅ (fun v hv => key_mem_univ g v hv)
      (by rw [Finset.sdiff_empty]; exact Nat.lt_succ_self _)
  · obtain ⟨s2, heq, -, -⟩ :=
      tarjanOuter_run g (bound g) (keys g) tarjanInit (TInv_init g)
        (fun v hv => key_mem_univ g v hv) (undiscCard_init_lt g)
    exact ⟨s2, heq⟩
  · obtain ⟨vis2, ord2, heq, -⟩ :=
      ordemOuter_some g (bound g) (ordemDfs_some g (bound g)) (keys g) ∅ []
        (fun v hv => key_mem_univ g v hv)
        (by rw [Finset.sdiff_empty]; exact Nat.lt_succ_self _)
    exact ⟨(vis2, ord2), heq⟩
  · obtain ⟨vis2, heq, -⟩ := reachDfs_some g (bound g) n ∅
      (by rw [Finset.sdiff_empty]; exact Nat.lt_succ_self _)
    exact ⟨vis2, heq⟩
  · obtain ⟨vis2, heq, -⟩ := reachDfs_some (invGraph g) (bound (invGraph g)) n ∅
      (by rw [Finset.sdiff_empty]; exact Nat.lt_succ_self _)
    exact ⟨vis2, heq⟩

end PkgDeps
